import Mathlib

/-!
# Verification of the `repos` monorepo build orchestrator

A shallow embedding, in Lean 4, of the core algorithms of the `repos` build
engine (Go): the dispatcher skip decision, task-result persistence, the
incremental file cache, target-name resolution (including the embedded
`path/filepath.Match` glob matcher), repository-root location, the task-graph
readiness pass and cycle detection, the dispatcher scheduling loop, and the
external-tool control protocol.

Conventions used throughout:
* Go `int64` nanosecond timestamps are modelled as `Int`.
* Go `map[string]V` values are modelled as association lists
  `List (String × V)`; the no-duplicate-keys invariant that Go maps maintain
  is carried as an explicit hypothesis where a theorem needs it.
* Go's nondeterministic map iteration order is fixed to list order; all
  boolean results proved here are independent of that order.
* Strings that are scanned byte-by-byte (glob patterns, protocol lines,
  error messages built by concatenation) are modelled as `List Char`;
  Go operates on UTF-8 bytes and decodes runes, which for valid UTF-8 input
  corresponds to iterating over `Char`s.
* Fallible Go functions returning `(T, error)` are modelled with
  `Except`/`Option`, or with an explicit error component.
-/

deriving instance DecidableEq for Except

namespace Repos

/-! ## §1 Data model

`TaskResult` mirrors the persisted task result record (`part_006`):
start/end of last run, start/end of last *successful* run, the skipped flag
and an optional error message. -/

structure TaskResult where
  SuccessBuildStartTime : Int := 0
  SuccessBuildEndTime : Int := 0
  StartTime : Int := 0
  EndTime : Int := 0
  Skipped : Bool := false
  Err : Option String := none
  deriving Repr, DecidableEq

/-- `OutputFiles` mirrors the record of a task's outputs: primary path,
keyed extra outputs (a Go map, modelled as an association list) and the list
of generated files. -/
structure OutputFiles where
  Primary : String := ""
  Extra : List (String × String) := []
  GeneratedFiles : List String := []
  deriving Repr, DecidableEq

/-- The distinguished results a tool execution can produce, mirroring the Go
error conventions: `nil` is success, `ErrSkipped` is the skip sentinel, any
other error is a failure carrying its message. -/
inductive GoErr where
  | skipped
  | failure (msg : String)
  deriving Repr, DecidableEq

/-- `Task.Failed()` from the task graph: the error is non-nil and is not the
skip sentinel. -/
def errFailed : Option GoErr → Bool
  | some (.failure _) => true
  | _ => false

/-- `Task.Skipped()` from the task graph: the error is the skip sentinel. -/
def errSkipped : Option GoErr → Bool
  | some .skipped => true
  | _ => false

/-! ## §2 The dispatcher-level skippability gate (`execution.executeTask`)

`executeTask` computes `xctx.Skippable` before invoking the executor:
it starts from `!target.Always && !task.NoSkip`, is cleared when the loaded
`TaskResult` lacks a successful build, and is cleared when any dependency
was not skipped in this run, has no successful build on record, or has a
successful build newer than this task's prior successful start. -/

/-- The per-dependency information `executeTask` consults: whether the
dependency task was skipped in this run (`dep.Skipped()`), and its persisted
`TaskResult` as loaded by `loadTaskResult` (the zero result if the file is
missing or unparseable). -/
structure DepInfo where
  skippedRun : Bool
  result : TaskResult
  deriving Repr, DecidableEq

/-- The per-dependency test inside the `for dep := range task.DepOn` loop of
`executeTask`: skippability survives the dependency iff the dependency was
skipped, both its success timestamps are non-zero, and neither of its success
timestamps exceeds this task's prior successful start time. -/
def depAllowsSkip (result : TaskResult) (dep : DepInfo) : Bool :=
  dep.skippedRun &&
  !(dep.result.SuccessBuildStartTime == 0 || dep.result.SuccessBuildEndTime == 0) &&
  !(dep.result.SuccessBuildStartTime > result.SuccessBuildStartTime ||
    dep.result.SuccessBuildEndTime > result.SuccessBuildStartTime)

/-- `computeSkippable` is the value of `xctx.Skippable` that `executeTask`
passes to the executor, given the target's `always` flag, the task's `NoSkip`
override, the task's loaded `TaskResult` and the dependency information. -/
def computeSkippable (always noSkip : Bool) (result : TaskResult)
    (deps : List DepInfo) : Bool :=
  let s := !always && !noSkip
  let s := if result.SuccessBuildStartTime == 0 || result.SuccessBuildEndTime == 0
    then false else s
  if s then deps.all (depAllowsSkip result) else s

/-- The predicate C1 literally states for each dependency: skipped in this
run, both success timestamps non-zero, and a successful build *strictly
older* than this task's prior successful start time. -/
def depAllowsSkipClaimed (result : TaskResult) (dep : DepInfo) : Bool :=
  dep.skippedRun &&
  !(dep.result.SuccessBuildStartTime == 0 || dep.result.SuccessBuildEndTime == 0) &&
  (dep.result.SuccessBuildStartTime < result.SuccessBuildStartTime &&
    dep.result.SuccessBuildEndTime < result.SuccessBuildStartTime)

/-- The skippability predicate exactly as claim C1 states it. -/
def skippableClaimed (always noSkip : Bool) (result : TaskResult)
    (deps : List DepInfo) : Bool :=
  !always && !noSkip &&
  !(result.SuccessBuildStartTime == 0) && !(result.SuccessBuildEndTime == 0) &&
  deps.all (depAllowsSkipClaimed result)

/-! ## §3 Task-result persistence (`execution.writeTaskResult`)

`writeTaskResult` mutates the `TaskResult` previously loaded by
`executeTask`: it overwrites start/end/skipped, records the error message on
failure, and promotes the timestamps to the success timestamps on success.
Crucially it never clears the `Err` field. -/

def writeTaskResult (loaded : TaskResult) (taskErr : Option GoErr)
    (startT endT : Int) : TaskResult :=
  let r := { loaded with StartTime := startT, EndTime := endT, Skipped := false }
  match taskErr with
  | some .skipped => { r with Skipped := true }
  | some (.failure msg) => { r with Err := some msg }
  | none => { r with SuccessBuildStartTime := startT, SuccessBuildEndTime := endT }

/-! ## §4 The incremental file cache (`FilesCache`, second half of `part_006`)

`fileEntry` records, per tracked path, whether it is a directory and its
modification time (`time.Time`, persisted and compared as UnixNano, modelled
as `Int`). The three tracked maps (`Inputs`, `Outputs`, `Generates`) are Go
maps from absolute path to entry, modelled as association lists. -/

structure FileEntry where
  Dir : Bool
  MTime : Int
  deriving Repr, DecidableEq

/-- `fileCacheContent`: the full persisted cache state. -/
structure FileCacheContent where
  Inputs : List (String × FileEntry) := []
  Outputs : List (String × FileEntry) := []
  Generates : List (String × FileEntry) := []
  Opaque : List String := []
  TaskOutputs : OutputFiles := {}
  deriving Repr, DecidableEq

/-- The filesystem as seen through `os.Stat`: for each path, either its
stat info or `none` when stat fails (file missing). -/
def Disk : Type := String → Option FileEntry

/-- Body of the `for fn, entry1 := range m1` loop of `compareFileEntryMaps`:
looks each entry of `m1` up in `m2` and compares the is-directory flag and
the modification time. `none` means success; `some msg` is the diagnostic
logged just before the Go function returns `false`. -/
def compareEntriesLoop (m2 : List (String × FileEntry)) (title : String) :
    List (String × FileEntry) → Option String
  | [] => none
  | (fn, e1) :: rest =>
    match m2.lookup fn with
    | none => some ("Cache " ++ title ++ "[" ++ fn ++ "] not found")
    | some e2 =>
      if e1.Dir ≠ e2.Dir then some ("Cache " ++ title ++ "[" ++ fn ++ "] IsDir differs")
      else if e1.MTime ≠ e2.MTime then some ("Cache " ++ title ++ "[" ++ fn ++ "] mtime differs")
      else compareEntriesLoop m2 title rest

/-- `compareFileEntryMaps`: the maps must have the same length and every
entry of `m1` must appear in `m2` with the same flag and mtime. -/
def compareFileEntryMaps (m1 m2 : List (String × FileEntry)) (title : String) :
    Option String :=
  if m1.length ≠ m2.length then some ("Cache " ++ title ++ " length differs")
  else compareEntriesLoop m2 title m1

/-- Body of the key-presence loop of `compareFileEntryKeys`. -/
def compareKeysLoop (m2 : List (String × FileEntry)) (title : String) :
    List (String × FileEntry) → Option String
  | [] => none
  | (fn, _) :: rest =>
    match m2.lookup fn with
    | none => some ("Cache " ++ title ++ "[" ++ fn ++ "] not found")
    | some _ => compareKeysLoop m2 title rest

/-- `compareFileEntryKeys`: same length and every key of `m1` present in
`m2`. -/
def compareFileEntryKeys (m1 m2 : List (String × FileEntry)) (title : String) :
    Option String :=
  if m1.length ≠ m2.length then some ("Cache " ++ title ++ " length differs")
  else compareKeysLoop m2 title m1

/-- Body of the key-presence loop of `compareExtraTaskOutputs` (over the
`Extra` map of `OutputFiles`, a Go `map[string]string`). -/
def compareExtraLoop (m2 : List (String × String)) :
    List (String × String) → Option String
  | [] => none
  | (key, _) :: rest =>
    match m2.lookup key with
    | none => some ("Cache extra outputs[" ++ key ++ "] not found")
    | some _ => compareExtraLoop m2 rest

/-- `compareExtraTaskOutputs`: same length and every key of `m1` present in
`m2`. -/
def compareExtraTaskOutputs (m1 m2 : List (String × String)) : Option String :=
  if m1.length ≠ m2.length then some "Cache extra outputs length differs"
  else compareExtraLoop m2 m1

/-- The positional comparison loop over the saved opaque list (`Verify`
iterates `s.saved.Opaque` and indexes `s.current.Opaque`; lengths were
checked equal just before). -/
def compareOpaqueLoop : List String → List String → Option String
  | v :: vs, w :: ws =>
    if w ≠ v then some "Cache opaque differs" else compareOpaqueLoop vs ws
  | _, _ => none

/-- Body of the `for fn := range current` loop of `checkUpToDate`: stats
every current path and compares with the *saved* entry. -/
def checkUpToDate (disk : Disk) (saved : List (String × FileEntry)) :
    List (String × FileEntry) → Option String
  | [] => none
  | (fn, _) :: rest =>
    match disk fn with
    | none => some ("stat " ++ fn ++ " error")
    | some info =>
      match saved.lookup fn with
      | none => some ("out-of-date: " ++ fn)
      | some entry =>
        if entry.Dir ≠ info.Dir ∨ entry.MTime ≠ info.MTime
        then some ("out-of-date: " ++ fn)
        else checkUpToDate disk saved rest

/-- `FilesCache.Verify`, as the pair (returned boolean, logged diagnostic
lines). `saved?` is the result of loading the state file (`none`: the file
is missing or does not parse; `Verify` loads it on demand and fails).
The primary-output comparison only logs — it does not fail verification. -/
def verify (saved? : Option FileCacheContent) (current : FileCacheContent)
    (disk : Disk) : Bool × List String :=
  match saved? with
  | none => (false, ["Cache load state error"])
  | some saved =>
    match compareFileEntryKeys saved.Outputs current.Outputs "outputs" with
    | some m => (false, [m])
    | none =>
    match compareFileEntryKeys saved.Generates current.Generates "generates" with
    | some m => (false, [m])
    | none =>
    match compareFileEntryMaps saved.Inputs current.Inputs "inputs" with
    | some m => (false, [m])
    | none =>
    let primaryLog :=
      if saved.TaskOutputs.Primary ≠ current.TaskOutputs.Primary
      then ["Cache primary output differs"] else []
    match compareExtraTaskOutputs saved.TaskOutputs.Extra current.TaskOutputs.Extra with
    | some m => (false, primaryLog ++ [m])
    | none =>
    match
      (if saved.Opaque.length ≠ current.Opaque.length
       then some "Cache opaque size differs"
       else compareOpaqueLoop saved.Opaque current.Opaque) with
    | some m => (false, primaryLog ++ [m])
    | none =>
    match checkUpToDate disk saved.Outputs current.Outputs with
    | some m => (false, primaryLog ++ ["Cache output: " ++ m])
    | none =>
    match checkUpToDate disk saved.Generates current.Generates with
    | some m => (false, primaryLog ++ ["Cache generate: " ++ m])
    | none => (true, primaryLog)

/-- Key sets expressed extensionally: the claim's "same key sets". -/
def sameKeys {β : Type} (m1 m2 : List (String × β)) : Prop :=
  ∀ k, k ∈ m1.map Prod.fst ↔ k ∈ m2.map Prod.fst

/-- The invariant Go maps guarantee for every `fileCacheContent`: no
duplicate keys in any of the tracked maps. -/
def FileCacheContent.WF (c : FileCacheContent) : Prop :=
  (c.Inputs.map Prod.fst).Nodup ∧ (c.Outputs.map Prod.fst).Nodup ∧
  (c.Generates.map Prod.fst).Nodup ∧ (c.TaskOutputs.Extra.map Prod.fst).Nodup

instance (c : FileCacheContent) : Decidable c.WF := by
  unfold FileCacheContent.WF; infer_instance

/-! ## §5 Repository-root location (`Repo.LocateRoot`, `pkg/repos/repo.go`)

`LocateRoot` walks from the working directory towards the filesystem root,
loading `REPOS.yaml` from each directory. A directory path is modelled as
the list of its components **innermost-first** (so `filepath.Dir` is
`List.tail` and `[]` is the filesystem root `/`). -/

/-- Modelled from the spec: the root-metadata record carries an
"absolute root" marker (`root.AbsoluteRoot` in `LocateRoot`); the field is
absent from the `meta.Root` declaration included under `src/`, which only
lists the data-dir/meta-folder/exclusion settings. -/
structure RootMeta where
  AbsoluteRoot : Bool
  deriving Repr, DecidableEq

/-- A directory path, components innermost-first; `[]` is `/`. -/
abbrev DirPath := List String

/-- The outcome of `meta.LoadRootFromDir` for one directory: parsed root
metadata, an error wrapping `os.ErrNotExist` (no `REPOS.yaml` there), or any
other load/parse error. -/
inductive LoadRootResult where
  | ok (root : RootMeta)
  | notExist
  | otherErr
  deriving Repr, DecidableEq

/-- Errors of `LocateRoot`: the final "find REPOS.yaml … failed" error
wrapping `os.ErrNotExist`, or a propagated load error. -/
inductive LocateErr where
  | notExist
  | loadErr
  deriving Repr, DecidableEq

/-- The loop guard `root == nil || !root.AbsoluteRoot` of `LocateRoot`,
negated: do we already hold a root marked absolute? -/
def absFound : Option (RootMeta × DirPath) → Bool
  | some (r, _) => r.AbsoluteRoot
  | none => false

/-- The `for root == nil || !root.AbsoluteRoot` loop of `LocateRoot`.
`found` is the latest `root, r.RootDir = m, wd` assignment. Each iteration:
exit if the found root is marked absolute; otherwise load `REPOS.yaml` from
`wd` (propagating non-`NotExist` errors, recording a successful load), and
either stop at the filesystem root (`wd == "/"`, i.e. `[]` — the `break` at
the bottom of the Go loop) or continue with the parent directory. -/
def locateLoop (fs : DirPath → LoadRootResult) :
    DirPath → Option (RootMeta × DirPath) →
      Except LocateErr (Option (RootMeta × DirPath))
  | [], found =>
    if absFound found then .ok found
    else
      match fs [] with
      | .otherErr => .error .loadErr
      | .notExist => .ok found
      | .ok m => .ok (some (m, []))
  | seg :: parent, found =>
    if absFound found then .ok found
    else
      match fs (seg :: parent) with
      | .otherErr => .error .loadErr
      | .notExist => locateLoop fs parent found
      | .ok m => locateLoop fs parent (some (m, seg :: parent))

/-- `LocateRoot`: run the walk from the working directory with nothing
found; failing with the `os.ErrNotExist`-wrapping error when no ancestor
had a root file. On success returns the root metadata and `r.RootDir`. -/
def locateRoot (fs : DirPath → LoadRootResult) (wd : DirPath) :
    Except LocateErr (RootMeta × DirPath) :=
  match locateLoop fs wd none with
  | .error e => .error e
  | .ok none => .error .notExist
  | .ok (some r) => .ok r

/-- The ancestors of a directory in walk order (the directory itself first,
the filesystem root `[]` last): exactly `List.tails`. -/
def ancList (wd : DirPath) : List DirPath := wd.tails

/-- The ancestors that successfully yield a parsed root file, nearest
first, paired with their directory. -/
def okRoots (fs : DirPath → LoadRootResult) (wd : DirPath) :
    List (RootMeta × DirPath) :=
  (ancList wd).filterMap fun d =>
    match fs d with
    | .ok m => some (m, d)
    | _ => none

/-- The concrete filesystem of the C7 counterexample: a non-absolute root
file in `/a/b` (written innermost-first as `["b", "a"]`) and another in
`/a`; nothing else. -/
def c7fs : DirPath → LoadRootResult := fun d =>
  if d = ["b", "a"] ∨ d = ["a"] then .ok ⟨false⟩ else .notExist

/-! ## §6 Glob matching: Go `path/filepath.Match`

`ResolveTargets` matches project and target names with `filepath.Match`.
We embed the Go implementation (as in the Go 1.16+ toolchains matching the
repository's `go.mod`), operating on rune sequences (`List Char`);
`Separator` is `/`; `ErrBadPattern` is the `Except` error. Strings are
treated as sequences of decoded runes (valid UTF-8 assumed).

The loops of `Match`/`matchChunk` whose Go counterparts advance a string
index are written with an explicit fuel argument so that every function is
structurally recursive (hence kernel-computable). Each loop iteration
consumes at least one character of the scanned string, so a fuel of
`length + 1` never runs out; the fuel-exhaustion branches are unreachable. -/

abbrev Str := List Char

/-- The leading-`*` stripping loop of `scanChunk`. -/
def stripStars : Str → (Bool × Str)
  | '*' :: rest => (true, (stripStars rest).2)
  | p => (false, p)

/-- The `Scan` loop of `scanChunk`: split the pattern at the first `*` that
is not inside a `[...]` range, a backslash escaping the following
character. -/
def scanChunkSplit (inrange : Bool) : Str → (Str × Str)
  | [] => ([], [])
  | c :: cs =>
    if c = '\\' then
      match cs with
      | [] => ([c], [])
      | d :: ds =>
        let (chunk, rest) := scanChunkSplit inrange ds
        (c :: d :: chunk, rest)
    else if c = '[' then
      let (chunk, rest) := scanChunkSplit true cs
      (c :: chunk, rest)
    else if c = ']' then
      let (chunk, rest) := scanChunkSplit false cs
      (c :: chunk, rest)
    else if c = '*' then
      if inrange then
        let (chunk, rest) := scanChunkSplit inrange cs
        (c :: chunk, rest)
      else ([], c :: cs)
    else
      let (chunk, rest) := scanChunkSplit inrange cs
      (c :: chunk, rest)

/-- `scanChunk`: gets the next segment of the pattern — a possible leading
star followed by the chunk up to the next unbracketed star. -/
def scanChunk (p : Str) : Bool × Str × Str :=
  let sp := stripStars p
  let cr := scanChunkSplit false sp.2
  (sp.1, cr.1, cr.2)

/-- `getEsc`: one possibly-escaped character out of a range. Errors on an
empty chunk, a leading `-` or `]`, a trailing backslash, and when nothing
follows the parsed character. -/
def getEsc : Str → Except Unit (Char × Str)
  | [] => .error ()
  | c :: cs =>
    if c = '-' ∨ c = ']' then .error ()
    else if c = '\\' then
      match cs with
      | [] => .error ()
      | d :: ds => if ds = [] then .error () else .ok (d, ds)
    else if cs = [] then .error () else .ok (c, cs)

/-- The `parse all ranges` loop of `matchChunk`'s `[` case: read `lo`-`hi`
pairs until the closing `]` (at least one range required), accumulating
whether the rune `r` falls in any range. Fuel: each iteration consumes at
least one character of `chunk`. -/
def parseRangesF (r : Char) : Nat → Str → Nat → Bool → Except Unit (Bool × Str)
  | 0, _, _, _ => .error ()
  | fuel + 1, chunk, nrange, m =>
    if chunk ≠ [] ∧ chunk.headD '\u0000' = ']' ∧ 0 < nrange then .ok (m, chunk.tail)
    else
      match getEsc chunk with
      | .error _ => .error ()
      | .ok (lo, chunk') =>
        match (if chunk'.headD '\u0000' = '-' then getEsc chunk'.tail
               else .ok (lo, chunk')) with
        | .error _ => .error ()
        | .ok (hi, chunk'') =>
          parseRangesF r fuel chunk'' (nrange + 1) (m || decide (lo ≤ r ∧ r ≤ hi))

/-- The `possibly negated` step of the `[` case: a leading `^` negates the
range and is consumed. -/
def caretSplit : Str → Bool × Str
  | '^' :: t => (true, t)
  | cs => (false, cs)

/-- `matchChunk` (Go 1.16+): match the chunk at the start of `s`; `failed`
records a mismatch already seen while the remaining chunk is still checked
for pattern errors. Returns `some rest` on success, `none` on a clean
mismatch, `.error` on a bad pattern. Fuel: each iteration consumes at
least one character of `chunk`. -/
def matchChunkF : Nat → Str → Str → Bool → Except Unit (Option Str)
  | 0, _, _, _ => .error ()
  | fuel + 1, chunk, s, failed0 =>
    match chunk with
    | [] => .ok (if failed0 then none else some s)
    | c :: cs =>
      let failed := failed0 || s.isEmpty
      if c = '[' then
        let r := if failed then '\u0000' else s.headD '\u0000'
        let s' := if failed then s else s.tail
        let nc := caretSplit cs
        match parseRangesF r (nc.2.length + 1) nc.2 0 false with
        | .error _ => .error ()
        | .ok mr =>
          matchChunkF fuel mr.2 s' (if mr.1 = nc.1 then true else failed)
      else if c = '?' then
        let failed' := failed || (s.headD '\u0000' == '/')
        let s' := if failed then s else s.tail
        matchChunkF fuel cs s' failed'
      else if c = '\\' then
        match cs with
        | [] => .error ()
        | d :: ds =>
          let failed' := failed || (decide (d ≠ s.headD '\u0000'))
          let s' := if failed then s else s.tail
          matchChunkF fuel ds s' failed'
      else
        let failed' := failed || (decide (c ≠ s.headD '\u0000'))
        let s' := if failed then s else s.tail
        matchChunkF fuel cs s' failed'

/-- `matchChunk` with its sufficient fuel. -/
def matchChunk (chunk s : Str) : Except Unit (Option Str) :=
  matchChunkF (chunk.length + 1) chunk s false

/-- The `Look for match skipping i+1 bytes` loop of `Match`'s star case:
try `matchChunk` at every later position of `name`, not skipping past a
separator. `restEmpty` says whether the pattern is exhausted after this
chunk (in which case a partial chunk match must keep scanning). -/
def starLoop (chunk : Str) (restEmpty : Bool) : Str → Except Unit (Option Str)
  | [] => .ok none
  | c :: cs =>
    if c = '/' then .ok none
    else
      match matchChunk chunk cs with
      | .error _ => .error ()
      | .ok (some t) =>
        if restEmpty ∧ t ≠ [] then starLoop chunk restEmpty cs
        else .ok (some t)
      | .ok none => starLoop chunk restEmpty cs

/-- The final loop of `Match` (Go 1.16+): before returning a non-error
false, check that the remainder of the pattern is syntactically able to
match the empty string. Fuel: each iteration consumes at least one pattern
character. -/
def checkRemainderF : Nat → Str → Except Unit Bool
  | 0, _ => .error ()
  | _ + 1, [] => .ok false
  | fuel + 1, p =>
    let scr := scanChunk p
    match matchChunk scr.2.1 [] with
    | .error _ => .error ()
    | .ok _ => checkRemainderF fuel scr.2.2

/-- The `Pattern` loop of `filepath.Match`. Fuel: each iteration consumes
at least one pattern character. -/
def matchGoF : Nat → Str → Str → Except Unit Bool
  | 0, _, _ => .error ()
  | fuel + 1, pattern, name =>
    match pattern with
    | [] => .ok (decide (name = []))
    | p =>
      let star := (scanChunk p).1
      let chunk := (scanChunk p).2.1
      let rest := (scanChunk p).2.2
      if star ∧ chunk = [] then .ok (! name.contains '/')
      else
        match matchChunk chunk name with
        | .error _ => .error ()
        | .ok r =>
          match r with
          | some t =>
            if t = [] ∨ rest ≠ [] then matchGoF fuel rest t
            else
              if star then
                match starLoop chunk (rest = []) name with
                | .error _ => .error ()
                | .ok r' =>
                  match r' with
                  | some t' => matchGoF fuel rest t'
                  | none => checkRemainderF (rest.length + 1) rest
              else checkRemainderF (rest.length + 1) rest
          | none =>
            if star then
              match starLoop chunk (rest = []) name with
              | .error _ => .error ()
              | .ok r' =>
                match r' with
                | some t' => matchGoF fuel rest t'
                | none => checkRemainderF (rest.length + 1) rest
            else checkRemainderF (rest.length + 1) rest

/-- `filepath.Match` with its sufficient fuel. -/
def matchGo (pattern name : Str) : Except Unit Bool :=
  matchGoF (pattern.length + 1) pattern name

/-! ## §7 Name resolution (`Repo.ResolveTargets`, `pkg/repos/repo.go`) -/

/-- A loaded project as the resolver sees it: its name and the local names
of its targets (`project.targets` keys, iteration order fixed). -/
structure ProjectT where
  name : Str
  targets : List Str
  deriving Repr, DecidableEq

/-- The error values `ResolveTargets` can return (each wrapped in a
formatted message in Go): `filepath.ErrBadPattern`, `ErrNoCurrentProject`,
`ErrAmbiguousMatch`. -/
inductive ResolveErr where
  | badPattern
  | noCurrentProject
  | ambiguousMatch
  deriving Repr, DecidableEq

/-- `strings.Split(pattern, ":")`. -/
def splitColon : Str → List Str
  | [] => [[]]
  | c :: rest =>
    if c = ':' then [] :: splitColon rest
    else
      match splitColon rest with
      | s :: ss => (c :: s) :: ss
      | [] => [[c]]

/-- `strings.TrimSpace` (the ASCII white-space characters; the Unicode
space classes beyond ASCII are not modelled). -/
def isSpaceGo (c : Char) : Bool :=
  c = ' ' ∨ c = '\t' ∨ c = '\n' ∨ c = '\u000B' ∨ c = '\u000C' ∨ c = '\r'

def trimSpace (s : Str) : Str :=
  ((s.dropWhile isSpaceGo).reverse.dropWhile isSpaceGo).reverse

/-- The project-selection loop for a wildcard project pattern: keep the
projects whose name matches, propagating a bad-pattern error. -/
def matchProjects (pp : Str) : List ProjectT → Except Unit (List ProjectT)
  | [] => .ok []
  | p :: ps =>
    match matchGo pp p.name with
    | .error _ => .error ()
    | .ok true =>
      match matchProjects pp ps with
      | .error _ => .error ()
      | .ok rest => .ok (p :: rest)
    | .ok false => matchProjects pp ps

/-- The inner target loop of `ResolveTargets` for one project: collect the
matching `(project, target)` pairs and whether any matched name differs
from the pattern (the `wildcardMatch` flag). -/
def collectFromNames (tp : Str) (pname : Str) :
    List Str → Except Unit (List (Str × Str) × Bool)
  | [] => .ok ([], false)
  | n :: ns =>
    match matchGo tp n with
    | .error _ => .error ()
    | .ok true =>
      match collectFromNames tp pname ns with
      | .error _ => .error ()
      | .ok (ts, w) => .ok ((pname, n) :: ts, w || decide (n ≠ tp))
    | .ok false => collectFromNames tp pname ns

/-- The outer target loop of `ResolveTargets` over the selected projects. -/
def collectTargets (tp : Str) : List ProjectT → Except Unit (List (Str × Str) × Bool)
  | [] => .ok ([], false)
  | p :: ps =>
    match collectFromNames tp p.name p.targets with
    | .error _ => .error ()
    | .ok (ts1, w1) =>
      match collectTargets tp ps with
      | .error _ => .error ()
      | .ok (ts2, w2) => .ok (ts1 ++ ts2, w1 || w2)

/-- `Repo.ResolveTargets`: resolves one pattern to the matched
`(project, target)` pairs together with an optional error (Go returns both
a target list and an error for the ambiguous-match case). -/
def resolveTargets (projects : List ProjectT) (current : Option ProjectT)
    (pattern : Str) : List (Str × Str) × Option ResolveErr :=
  let items := splitColon pattern
  if 2 < items.length then ([], some .badPattern)
  else
    let onlyTargets := items.length = 1
    let projResult : Except ResolveErr (List ProjectT × Str) :=
      if onlyTargets then .ok (projects, trimSpace (items.headD []))
      else
        let pp := trimSpace (items.headD [])
        let tp := trimSpace ((items.drop 1).headD [])
        if pp = [] then
          match current with
          | none => .error .noCurrentProject
          | some p => .ok ([p], tp)
        else
          match matchProjects pp projects with
          | .error _ => .error .badPattern
          | .ok ps => .ok (ps, tp)
    match projResult with
    | .error e => ([], some e)
    | .ok (ps, tp) =>
      if tp = [] then ([], some .badPattern)
      else
        match collectTargets tp ps with
        | .error _ => ([], some .badPattern)
        | .ok (targets, wildcard) =>
          if targets = [] then ([], none)
          else if onlyTargets ∧ ¬wildcard ∧ 1 < targets.length
          then (targets, some .ambiguousMatch)
          else (targets, none)

/-- A pattern is a literal in the claim's sense: no glob meta-character and
no escape. -/
def isLiteralGo (s : Str) : Bool :=
  s.all fun c => decide (c ≠ '*' ∧ c ≠ '?' ∧ c ≠ '[' ∧ c ≠ '\\')

/-- Does the target name match the pattern (with no pattern error)? -/
def matchedB (tp n : Str) : Bool :=
  match matchGo tp n with
  | .ok true => true
  | _ => false

/-- All `(project, target)` pairs whose target name matches the pattern, in
resolver order. -/
def allMatches (tp : Str) (projects : List ProjectT) : List (Str × Str) :=
  projects.flatMap fun pr =>
    (pr.targets.filter (matchedB tp)).map fun n => (pr.name, n)

/-- The two projects of the C5 counterexample, each defining a target
literally named `a*`. -/
def c5projects : List ProjectT :=
  [⟨['p'], [['a', '*']]⟩, ⟨['q'], [['a', '*']]⟩]

/-! ## §8 Task graph: readiness pass and cycle detection
    (`TaskGraph.Prepare`, `Repo.Plan`)

A materialised task graph (after `BuildTaskGraph`): the set of global task
names (Go map iteration fixed to list order) and each task's dependency set
`Task.DepOn`. `BuildTaskGraph` materialises every dependency as a task, so
the dependency lists are closed over `tasks`; that closure (and the map
invariant that `tasks` has no duplicates) is carried as a hypothesis. -/

structure TaskGraphM where
  tasks : List Str
  depOn : Str → List Str

/-- The dependency relation of the graph: `d` is a (materialised) direct
dependency of task `t`. -/
def depRel (g : TaskGraphM) (d t : Str) : Prop :=
  t ∈ g.tasks ∧ d ∈ g.depOn t

/-- One release round of `Prepare`'s readiness pass: a task counts as
released if it was already released or all of its dependencies were. -/
def releaseRound (g : TaskGraphM) (released : List Str) : List Str :=
  g.tasks.filter fun t =>
    decide (t ∈ released) || (g.depOn t).all fun d => decide (d ∈ released)

/-- Iterated release rounds. The readiness pass of `TaskGraph.Prepare`
pops a work queue, counting completed dependencies and releasing a task
exactly when all its dependencies have been released; its observable
result — the set of released tasks — is the least fixpoint of
`releaseRound`, which the bounded iteration below reaches within
`tasks.length + 1` rounds. -/
def releasedAfter (g : TaskGraphM) : Nat → List Str
  | 0 => []
  | n + 1 => releaseRound g (releasedAfter g n)

/-- The released set at the fixpoint. -/
def releasedSet (g : TaskGraphM) : List Str :=
  releasedAfter g (g.tasks.length + 1)

/-- `TaskGraph.Prepare`'s returned set: the tasks never released by the
readiness pass. -/
def prepareNotReady (g : TaskGraphM) : List Str :=
  g.tasks.filter fun t => !decide (t ∈ releasedSet g)

/-- `strings.Join(names, ",")`. -/
def joinComma : List Str → Str
  | [] => []
  | [s] => s
  | s :: rest => s ++ ',' :: joinComma rest

/-- The message of the error `Repo.Plan` returns on cyclic dependencies:
`fmt.Errorf("cyclic dependencies in %s", strings.Join(names, ","))`. -/
def planErrMsg (names : List Str) : Str :=
  "cyclic dependencies in ".data ++ joinComma names

/-- `Repo.Plan` after a successful `BuildTaskGraph`: prepare the graph and
fail when any task was not released. -/
def planResult (g : TaskGraphM) : Except Str Unit :=
  if prepareNotReady g = [] then .ok () else .error (planErrMsg (prepareNotReady g))

/-- The concrete two-task cyclic graph of the C4 witness: `a` and `b`
depend on each other. -/
def c4g : TaskGraphM :=
  { tasks := [['a'], ['b']]
    depOn := fun t => if t = ['a'] then [['b']] else if t = ['b'] then [['a']] else [] }

/-! ## §9 The dispatcher execution loop (`execution.run` and friends)

A sequential small-step model of the dispatcher: the coordinator moves the
head of the ready list to a worker (`execution.enqueue` peeks the front of
`ReadyList`), and a worker finishes a running task with an arbitrary
outcome (`nil`, `ErrSkipped` or a failure), upon which the coordinator runs
`TaskGraph.Complete` — recording the completion, and, unless the task
failed, crediting every dependent and releasing those whose dependency
count is reached. Interleaving of concurrent workers is captured by the
nondeterministic choice of which running task finishes next; context
cancellation is not modelled. -/

structure ExecState where
  ready : List Str
  running : List Str
  completed : List (Str × Option GoErr)
  depDone : Str → List Str

/-- The state after `Prepare` on an acyclic graph: the zero-dependency
tasks form the ready list, nothing runs, nothing is completed, and all
`DepDone` sets are empty. -/
def initState (g : TaskGraphM) : ExecState :=
  { ready := g.tasks.filter fun t => (g.depOn t).isEmpty
    running := []
    completed := []
    depDone := fun _ => [] }

/-- The `DepDone` sets after `TaskGraph.Complete` credits a successful
task `r` to each of its dependents (`markDepDone`). -/
def ddAfter (g : TaskGraphM) (s : ExecState) (r : Str) : Str → List Str :=
  fun u =>
    if r ∈ g.depOn u ∧ r ∉ s.depDone u then s.depDone u ++ [r] else s.depDone u

/-- The tasks `TaskGraph.Complete` releases when `r` succeeds: dependents
of `r` whose dependency count is reached after crediting `r`. -/
def newlyReadyAfter (g : TaskGraphM) (s : ExecState) (r : Str) : List Str :=
  g.tasks.filter fun u =>
    decide (r ∈ g.depOn u) && decide ((g.depOn u).length ≤ (ddAfter g s r u).length)

/-- `TaskGraph.Complete` on task `r` finishing with outcome `e`, combined
with the worker posting the result: `r` leaves the running set and is
appended to the complete list; if it did not fail, every dependent's
`DepDone` set records `r`, and dependents whose count reaches their
dependency count enter the ready list. -/
def completeStep (g : TaskGraphM) (s : ExecState) (r : Str) (e : Option GoErr) :
    ExecState :=
  if errFailed e then
    { s with running := s.running.erase r
             completed := s.completed ++ [(r, e)] }
  else
    { ready := s.ready ++ newlyReadyAfter g s r
      running := s.running.erase r
      completed := s.completed ++ [(r, e)]
      depDone := ddAfter g s r }

/-- One step of the dispatcher: hand the front of the ready list to a
worker, or complete any running task with some outcome. -/
inductive DStep (g : TaskGraphM) : ExecState → ExecState → Prop
  | dispatch (s : ExecState) (u : Str) (rest : List Str) (h : s.ready = u :: rest) :
      DStep g s { s with ready := rest, running := s.running ++ [u] }
  | finish (s : ExecState) (r : Str) (e : Option GoErr) (h : r ∈ s.running) :
      DStep g s (completeStep g s r e)

/-- The error values the dispatcher run can end with. `ErrIncomplete` is
declared in `errors.go`. Modelled from the spec: `ErrSomeTaskFailed`, the
distinct any-task-failed error — it is referenced by the build command
(`pkg/cli/build_cmd.go`) but neither declared nor produced anywhere in the
engine code under `src/`. -/
inductive RunError where
  | incomplete
  | someTaskFailed
  deriving Repr, DecidableEq

/-- The error `execution.run` returns once the loop exits with no running
tasks (ignoring context errors): `ErrIncomplete` iff not all tasks
completed (`haveWorkToDo`), and `nil` otherwise. -/
def runResult (g : TaskGraphM) (s : ExecState) : Option RunError :=
  if s.completed.length < g.tasks.length then some .incomplete else none

/-- The concrete two-task graph of the C3 counterexample: `b` depends on
`a`. -/
def c3g : TaskGraphM :=
  { tasks := [['a'], ['b']]
    depOn := fun t => if t = ['b'] then [['a']] else [] }

/-- After dispatching `a`. -/
def c3s1 : ExecState :=
  { initState c3g with ready := [], running := (initState c3g).running ++ [['a']] }

/-- After `a` finishes with a failure: the terminal state of the run. -/
def c3s2 : ExecState := completeStep c3g c3s1 ['a'] (some (.failure "boom"))

/-- The concrete graph of the C6 witness: `b` depends on `a`, and the run
dispatches `a`, fails it, and is stuck. -/
def c6g : TaskGraphM :=
  { tasks := [['a'], ['b']]
    depOn := fun t => if t = ['b'] then [['a']] else [] }

def c6s1 : ExecState :=
  { initState c6g with ready := [], running := (initState c6g).running ++ [['a']] }

def c6s2 : ExecState := completeStep c6g c6s1 ['a'] (some (.failure "x"))

/-- The dispatcher invariant: task names occur at most once across the
ready, running and completed sets; all belong to the graph; each `DepDone`
set is a duplicate-free subset of the task's dependencies, all of which
completed without failure; and every task that is ready, running or
completed had all of its dependencies completed without failure first. -/
structure Inv (g : TaskGraphM) (s : ExecState) : Prop where
  rd_nodup : s.ready.Nodup
  run_nodup : s.running.Nodup
  comp_nodup : (s.completed.map Prod.fst).Nodup
  rd_run : ∀ u, u ∈ s.ready → u ∉ s.running
  rd_comp : ∀ u, u ∈ s.ready → u ∉ s.completed.map Prod.fst
  run_comp : ∀ u, u ∈ s.running → u ∉ s.completed.map Prod.fst
  rd_tasks : ∀ u, u ∈ s.ready → u ∈ g.tasks
  run_tasks : ∀ u, u ∈ s.running → u ∈ g.tasks
  comp_tasks : ∀ u, u ∈ s.completed.map Prod.fst → u ∈ g.tasks
  dd_nodup : ∀ u, (s.depDone u).Nodup
  dd_sub : ∀ u d, d ∈ s.depDone u → d ∈ g.depOn u
  dd_done : ∀ u d, d ∈ s.depDone u →
    ∃ e, (d, e) ∈ s.completed ∧ errFailed e = false
  rd_deps : ∀ u, u ∈ s.ready → ∀ d, d ∈ g.depOn u →
    ∃ e, (d, e) ∈ s.completed ∧ errFailed e = false
  run_deps : ∀ u, u ∈ s.running → ∀ d, d ∈ g.depOn u →
    ∃ e, (d, e) ∈ s.completed ∧ errFailed e = false
  comp_deps : ∀ p, p ∈ s.completed → ∀ d, d ∈ g.depOn p.1 →
    ∃ e, (d, e) ∈ s.completed ∧ errFailed e = false

/-! ## §10 The external-tool protocol (`ExecuteExtToolCmd`/`controlCmd` in
`pkg/repos/exttool.go`, with `CacheReporter` from the cache module and the
`FilesCache` mutators)

The child's stdout is a sequence of lines; each line is a command byte
followed by a value. The engine mutates a `CacheReporter` wrapping a fresh
`FilesCache` and replies to `V` lines on the child's stdin. The snapshot's
`Cache` interface declaration differs from the `FilesCache` implementation
(a stale interface listing); the model follows the concrete `FilesCache`
and `CacheReporter` implementations, which is what `ExecuteExtToolCmd`
builds. `filepath.Join` is modelled as slash-concatenation without the
`Clean` normalisation — no claim depends on path normalisation. The
filesystem is a finite list of stat entries so that the recursive walk of
`AddInputRecursively` is enumerable. -/

/-- A finite filesystem: the paths `os.Stat`/`filepath.Walk` can see. -/
def DiskL : Type := List (String × FileEntry)

/-- The stat view of a finite filesystem. -/
def toDisk (d : DiskL) : Disk := fun fn => d.lookup fn

/-- `filepath.Join`, modelled as slash-concatenation (no `Clean`). -/
def pathJoin (a b : String) : String := a ++ "/" ++ b

/-- `strings.HasSuffix(s, string(filepath.Separator))`. -/
def hasSuffixSlash (s : String) : Bool := s.data.getLast? == some '/'

/-- `strings.TrimRight(s, pathSep)`: drop all trailing separators. -/
def trimRightSlash (s : String) : String :=
  String.mk (s.data.reverse.dropWhile (· == '/')).reverse

/-- Go map assignment `m[k] = v`: overwrite the existing entry or append a
new one. -/
def mapSet {β : Type} (m : List (String × β)) (k : String) (v : β) :
    List (String × β) :=
  if (m.lookup k).isSome then m.map fun p => if p.1 = k then (k, v) else p
  else m ++ [(k, v)]

/-- The slice of `ToolExecContext` the cache mutators read: the directory
roots and the skippability flag computed by the dispatcher. -/
structure XCtx where
  projectDir : String
  outDir : String
  sourceDir : String
  sourceSubDir : String
  skippable : Bool
  deriving Repr, DecidableEq

/-- `FilesCache.addInputEntry`: record the stat entry under the path. -/
def addInputEntry (c : FileCacheContent) (fn : String) (e : FileEntry) :
    FileCacheContent :=
  { c with Inputs := mapSet c.Inputs fn e }

/-- `FilesCache.AddInput`: stat the path under the project directory (or
walk it recursively) and record the entries; an error when stat/walk
fails. -/
def addInput (x : XCtx) (d : DiskL) (c : FileCacheContent) (relPath : String)
    (rcv : Bool) : Except String FileCacheContent :=
  if rcv then
    let root := pathJoin x.projectDir relPath
    if (List.lookup root d).isSome then
      .ok (List.foldl (fun acc p => addInputEntry acc p.1 p.2) c
        (d.filter fun p => decide (p.1 = root) || (root ++ "/").isPrefixOf p.1))
    else .error ("walk " ++ root ++ " error")
  else
    match List.lookup (pathJoin x.projectDir relPath) d with
    | some fi => .ok (addInputEntry c (pathJoin x.projectDir relPath) fi)
    | none => .error ("stat " ++ pathJoin x.projectDir relPath ++ " error")

/-- `FilesCache.AddSource`: like `AddInput` but relative to the source
sub-directory when one is configured. -/
def addSource (x : XCtx) (d : DiskL) (c : FileCacheContent) (relPath : String)
    (rcv : Bool) : Except String FileCacheContent :=
  if x.sourceSubDir ≠ "" then addInput x d c (pathJoin x.sourceSubDir relPath) rcv
  else addInput x d c relPath rcv

/-- `FilesCache.AddOutput`: record the output entry under the out
directory (zero mtime until `Persist` refreshes it) and publish the path
as the primary output (empty key) or a keyed extra output. -/
def addOutput (x : XCtx) (c : FileCacheContent) (key relPath : String) :
    FileCacheContent :=
  let dir := hasSuffixSlash relPath
  let fn := pathJoin x.outDir (trimRightSlash relPath)
  let c1 := { c with Outputs := mapSet c.Outputs fn { Dir := dir, MTime := 0 } }
  if key = "" then
    { c1 with TaskOutputs := { c1.TaskOutputs with Primary := relPath } }
  else
    { c1 with TaskOutputs :=
      { c1.TaskOutputs with Extra := mapSet c1.TaskOutputs.Extra key relPath } }

/-- `FilesCache.AddGenerated`: record the generated entry under the source
directory and append the path to the generated-files list. -/
def addGenerated (x : XCtx) (c : FileCacheContent) (relPath : String) :
    FileCacheContent :=
  { c with
    Generates := mapSet c.Generates
      (pathJoin x.sourceDir (trimRightSlash relPath))
      { Dir := hasSuffixSlash relPath, MTime := 0 }
    TaskOutputs := { c.TaskOutputs with
      GeneratedFiles := c.TaskOutputs.GeneratedFiles ++ [relPath] } }

/-- The replayable records a `CacheReporter` accumulates: one constructor
per recorded closure shape. -/
inductive CacheOp where
  | addInput (relPath : String) (rcv : Bool)
  | addSource (relPath : String) (rcv : Bool)
  | addOutput (key relPath : String)
  | addGenerated (relPath : String)
  | addOpaque (vals : List String)
  deriving Repr, DecidableEq

/-- Replaying one record onto a cache (`CacheReporter.Replay` body). -/
def applyOp (x : XCtx) (d : DiskL) (c : FileCacheContent) :
    CacheOp → Except String FileCacheContent
  | .addInput rel rcv => addInput x d c rel rcv
  | .addSource rel rcv => addSource x d c rel rcv
  | .addOutput key rel => .ok (addOutput x c key rel)
  | .addGenerated rel => .ok (addGenerated x c rel)
  | .addOpaque vals => .ok { c with Opaque := c.Opaque ++ vals }

/-- The state `ExecuteExtToolCmd` threads through `controlCmd`: the
reporter's wrapped `FilesCache` (current content plus the loaded saved
state), the contents of the on-disk state file, the replay records, and
the lines written to the child's stdin. -/
structure ToolState where
  current : FileCacheContent
  saved : Option FileCacheContent
  stateFile : Option FileCacheContent
  records : List CacheOp
  writes : List String
  deriving Repr, DecidableEq

/-- `CacheReporter.AddSource`/`AddSourceRecursively` (record appended only
on success). -/
def crAddSource (x : XCtx) (d : DiskL) (st : ToolState) (rel : String)
    (rcv : Bool) : Except String ToolState :=
  match addSource x d st.current rel rcv with
  | .error m => .error m
  | .ok c => .ok { st with current := c
                           records := st.records ++ [.addSource rel rcv] }

/-- `CacheReporter.AddInput`/`AddInputRecursively`. -/
def crAddInput (x : XCtx) (d : DiskL) (st : ToolState) (rel : String)
    (rcv : Bool) : Except String ToolState :=
  match addInput x d st.current rel rcv with
  | .error m => .error m
  | .ok c => .ok { st with current := c
                           records := st.records ++ [.addInput rel rcv] }

/-- `CacheReporter.AddOutput`. -/
def crAddOutput (x : XCtx) (st : ToolState) (key rel : String) : ToolState :=
  { st with current := addOutput x st.current key rel
            records := st.records ++ [.addOutput key rel] }

/-- `CacheReporter.AddGenerated`. -/
def crAddGenerated (x : XCtx) (st : ToolState) (rel : String) : ToolState :=
  { st with current := addGenerated x st.current rel
            records := st.records ++ [.addGenerated rel] }

/-- `CacheReporter.AddOpaque`. -/
def crAddOpaque (st : ToolState) (vals : List String) : ToolState :=
  { st with current := { st.current with Opaque := st.current.Opaque ++ vals }
            records := st.records ++ [.addOpaque vals] }

/-- `FilesCache.Verify` with its load-on-demand side effect: when no saved
state has been loaded yet, load it from the state file (failing
verification when that file is missing or unreadable), then run the
comparison chain of §4. -/
def crVerify (d : DiskL) (st : ToolState) : Bool × ToolState :=
  match st.saved with
  | some sv => ((verify (some sv) st.current (toDisk d)).1, st)
  | none =>
    match st.stateFile with
    | none => (false, st)
    | some sv => ((verify (some sv) st.current (toDisk d)).1,
        { st with saved := some sv })

/-- The `V` case of `controlCmd`: `xctx.Skippable && cache.Verify()`
decides whether `"1"` or `"0"` is written to the child's stdin (Go's `&&`
short-circuits, so `Verify` — and its load side effect — only runs when
skippable). -/
def vLineStep (x : XCtx) (d : DiskL) (st : ToolState) : ToolState :=
  if x.skippable then
    let p := crVerify d st
    { p.2 with writes := p.2.writes ++ [if p.1 then "1" else "0"] }
  else { st with writes := st.writes ++ ["0"] }

/-- `strings.SplitN(val, ":", 2)`: split at the first colon, `none` when
no colon occurs. -/
def splitN2Colon : List Char → Option (List Char × List Char)
  | [] => none
  | ':' :: rest => some ([], rest)
  | ch :: rest =>
    match splitN2Colon rest with
    | none => none
    | some p => some (ch :: p.1, p.2)

/-- The outcome of processing a single protocol line. -/
inductive LineResult where
  | next (st : ToolState)
  | fail (m : String)
  | skip (st : ToolState)
  deriving Repr, DecidableEq

/-- The body of `controlCmd`'s scanner loop: empty lines are skipped;
otherwise the first byte selects the command and the rest is the value
(`S`/`I` trim one trailing separator for the recursive variants, `O`
splits an optional key before the first colon, unknown commands are
ignored). -/
def processLine (x : XCtx) (d : DiskL) (st : ToolState) (line : String) :
    LineResult :=
  match line.data with
  | [] => .next st
  | c :: valChars =>
    let val := String.mk valChars
    if c = 'S' then
      match (if hasSuffixSlash val
             then crAddSource x d st (String.mk valChars.dropLast) true
             else crAddSource x d st val false) with
      | .error m => .fail m
      | .ok st2 => .next st2
    else if c = 'I' then
      match (if hasSuffixSlash val
             then crAddInput x d st (String.mk valChars.dropLast) true
             else crAddInput x d st val false) with
      | .error m => .fail m
      | .ok st2 => .next st2
    else if c = 'O' then
      .next (match splitN2Colon valChars with
        | some kp => crAddOutput x st (String.mk kp.1) (String.mk kp.2)
        | none => crAddOutput x st "" val)
    else if c = 'G' then .next (crAddGenerated x st val)
    else if c = 'P' then .next (crAddOpaque st [val])
    else if c = 'V' then .next (vLineStep x d st)
    else if c = 'C' then .next { st with stateFile := none }
    else if c = 'X' then .skip st
    else .next st

/-- How `controlCmd` ends: scanner exhausted (`nil` return), an error from
an `S`/`I` record, or `ErrSkipped` from an `X` line. -/
inductive ControlResult where
  | normal (st : ToolState)
  | fail (m : String)
  | skipped (st : ToolState)
  deriving Repr, DecidableEq

/-- `controlCmd` over the child's stdout lines. -/
def controlLoop (x : XCtx) (d : DiskL) (st : ToolState) :
    List String → ControlResult
  | [] => .normal st
  | line :: rest =>
    match processLine x d st line with
    | .next st2 => controlLoop x d st2 rest
    | .fail m => .fail m
    | .skip st2 => .skipped st2

/-- The stdin writes observable in a control outcome. -/
def controlWrites : ControlResult → Option (List String)
  | .normal st => some st.writes
  | .skipped st => some st.writes
  | .fail _ => none

/-- `CacheReporter.Replay` inside `ReplayAndPersistCacheOrLog`: replay the
records onto a cache; on the first failing record the partially-replayed
cache is kept and nothing is persisted (`false`), otherwise the replayed
cache is persisted (`true`). -/
def replayLoop (x : XCtx) (d : DiskL) (c : FileCacheContent) :
    List CacheOp → FileCacheContent × Bool
  | [] => (c, true)
  | op :: rest =>
    match applyOp x d c op with
    | .ok c2 => replayLoop x d c2 rest
    | .error _ => (c, false)

/-- The observable outcome of `ExecuteExtToolCmd` after the child started:
an error; `ErrSkipped` with the saved outputs published; the nil-pointer
dereference of `*cr.SavedTaskOutputs()` when `X` arrives with no saved
state loaded; or normal completion with the replayed cache published (and
persisted when the replay succeeded). -/
inductive ExecOutcome where
  | err (m : String)
  | skippedPublished (outs : OutputFiles)
  | nilDeref
  | done (outs : OutputFiles) (cache : FileCacheContent) (persisted : Bool)
  deriving Repr, DecidableEq

/-- The reporter state after `cr.AddOpaque(cmd.Args...)` and
`cr.AddOpaque(envs...)`, before any stdout line is processed. -/
def initToolState (args envs : List String)
    (stateFile : Option FileCacheContent) : ToolState :=
  crAddOpaque (crAddOpaque
    { current := {}, saved := none, stateFile := stateFile
      records := [], writes := [] } args) envs

/-- `ExecuteExtToolCmd` from the reporter's creation onward: seed the
opaques with the command arguments then the environment entries, run the
control loop, and dispatch on its outcome exactly as the Go code does
(`controlCmd` error first, then `cmd.Wait`'s error, then replay, persist
and publish). -/
def executeExtTool (x : XCtx) (d : DiskL) (stateFile : Option FileCacheContent)
    (args envs : List String) (lines : List String)
    (execErr : Option String) : ExecOutcome :=
  match controlLoop x d (initToolState args envs stateFile) lines with
  | .fail m => .err m
  | .skipped st =>
    match st.saved with
    | some sv => .skippedPublished sv.TaskOutputs
    | none => .nilDeref
  | .normal st =>
    match execErr with
    | some m => .err m
    | none =>
      let pr := replayLoop x d {} st.records
      .done pr.1.TaskOutputs pr.1 pr.2

/-- The concrete execution context of the C8 witness. -/
def c8x : XCtx :=
  { projectDir := "p", outDir := "o", sourceDir := "s", sourceSubDir := ""
    skippable := true }

/-- The concrete execution context of the C10 counterexample. -/
def c10x : XCtx :=
  { projectDir := "", outDir := "", sourceDir := "", sourceSubDir := ""
    skippable := true }

/-- The saved cache state of the C10 counterexample: only the two opaque
strings recorded from a previous invocation. -/
def c10saved : FileCacheContent := { Opaque := ["a", "b"] }

end Repos

namespace Repos

/-! ### Association-list lemmas (the Go-map invariant: no duplicate keys) -/

theorem mem_of_lookup_some {β : Type} {m : List (String × β)} {a : String} {b : β}
    (h : m.lookup a = some b) : (a, b) ∈ m := by
  induction m with
  | nil => simp [List.lookup] at h
  | cons p rest ih =>
    obtain ⟨k, v⟩ := p
    by_cases hk : a = k
    · subst hk
      simp [List.lookup] at h
      simp [h]
    · simp only [List.lookup, beq_eq_false_iff_ne, ne_eq, hk,
        not_false_iff] at h
      rw [show ((a == k) = false) from by simp [hk]] at h
      exact List.mem_cons_of_mem _ (ih h)

theorem lookup_some_of_mem {β : Type} {m : List (String × β)} {a : String} {b : β}
    (nd : (m.map Prod.fst).Nodup) (h : (a, b) ∈ m) : m.lookup a = some b := by
  induction m with
  | nil => simp at h
  | cons p rest ih =>
    obtain ⟨k, v⟩ := p
    simp only [List.map_cons, List.nodup_cons] at nd
    rcases List.mem_cons.mp h with heq | hmem
    · cases heq
      simp [List.lookup]
    · have hak : a ≠ k := by
        rintro rfl
        exact nd.1 (List.mem_map.mpr ⟨(a, b), hmem, rfl⟩)
      simp only [List.lookup]
      rw [show ((a == k) = false) from by simp [hak]]
      exact ih nd.2 hmem

theorem lookup_none_iff {β : Type} {m : List (String × β)} {a : String} :
    m.lookup a = none ↔ a ∉ m.map Prod.fst := by
  induction m with
  | nil => simp [List.lookup]
  | cons p rest ih =>
    obtain ⟨k, v⟩ := p
    by_cases hk : a = k
    · subst hk
      simp [List.lookup]
    · simp only [List.lookup]
      rw [show ((a == k) = false) from by simp [hk]]
      simp [ih, hk]

theorem lookup_isSome_iff {β : Type} {m : List (String × β)} {a : String} :
    (m.lookup a).isSome = true ↔ a ∈ m.map Prod.fst := by
  constructor
  · intro hs
    cases h : m.lookup a with
    | none => rw [h] at hs; simp at hs
    | some b => exact List.mem_map.mpr ⟨(a, b), mem_of_lookup_some h, rfl⟩
  · intro hk
    cases h : m.lookup a with
    | none => exact absurd hk (lookup_none_iff.mp h)
    | some b => simp

theorem sameKeys_of_subset_len {β : Type} {m1 m2 : List (String × β)}
    (nd1 : (m1.map Prod.fst).Nodup) (nd2 : (m2.map Prod.fst).Nodup)
    (hlen : m1.length = m2.length)
    (hsub : ∀ k ∈ m1.map Prod.fst, k ∈ m2.map Prod.fst) :
    sameKeys m1 m2 := by
  have hsub' : (m1.map Prod.fst).toFinset ⊆ (m2.map Prod.fst).toFinset := by
    intro k hk
    exact List.mem_toFinset.mpr (hsub k (List.mem_toFinset.mp hk))
  have hcard1 : (m1.map Prod.fst).toFinset.card = m1.length := by
    rw [List.toFinset_card_of_nodup nd1, List.length_map]
  have hcard2 : (m2.map Prod.fst).toFinset.card = m2.length := by
    rw [List.toFinset_card_of_nodup nd2, List.length_map]
  have := Finset.eq_of_subset_of_card_le hsub' (by omega)
  intro k
  constructor
  · intro hk
    exact List.mem_toFinset.mp (this ▸ List.mem_toFinset.mpr hk)
  · intro hk
    exact List.mem_toFinset.mp (this ▸ List.mem_toFinset.mpr hk)

theorem sameKeys_length_eq {β : Type} {m1 m2 : List (String × β)}
    (nd1 : (m1.map Prod.fst).Nodup) (nd2 : (m2.map Prod.fst).Nodup)
    (h : sameKeys m1 m2) : m1.length = m2.length := by
  have : (m1.map Prod.fst).toFinset = (m2.map Prod.fst).toFinset := by
    ext k
    simp only [List.mem_toFinset]
    exact h k
  have hcard1 : (m1.map Prod.fst).toFinset.card = m1.length := by
    rw [List.toFinset_card_of_nodup nd1, List.length_map]
  have hcard2 : (m2.map Prod.fst).toFinset.card = m2.length := by
    rw [List.toFinset_card_of_nodup nd2, List.length_map]
  rw [this] at hcard1
  omega


/-! ## Theorems for claims C1 and C9 -/

/-- C1, counterexample: with no `always` flag, no force-rebuild, a prior
successful run at time 5, and a single dependency skipped in this run whose
successful build start and end times *equal* this task's prior successful
start time, the code still reports the task skippable, while the claim
(which demands a strictly older dependency build) says it is not. -/
theorem c1_counterexample :
    computeSkippable false false
      { SuccessBuildStartTime := 5, SuccessBuildEndTime := 5 }
      [⟨true, { SuccessBuildStartTime := 5, SuccessBuildEndTime := 5 }⟩] = true ∧
    skippableClaimed false false
      { SuccessBuildStartTime := 5, SuccessBuildEndTime := 5 }
      [⟨true, { SuccessBuildStartTime := 5, SuccessBuildEndTime := 5 }⟩] = false := by
  decide

/-- The per-dependency gate of `executeTask`, spelled out. -/
theorem depAllowsSkip_iff (result : TaskResult) (dep : DepInfo) :
    depAllowsSkip result dep = true ↔
      (dep.skippedRun = true ∧
       dep.result.SuccessBuildStartTime ≠ 0 ∧
       dep.result.SuccessBuildEndTime ≠ 0 ∧
       dep.result.SuccessBuildStartTime ≤ result.SuccessBuildStartTime ∧
       dep.result.SuccessBuildEndTime ≤ result.SuccessBuildStartTime) := by
  simp only [depAllowsSkip, Bool.and_eq_true, Bool.not_eq_true',
    Bool.or_eq_false_iff, decide_eq_false_iff_not, beq_eq_false_iff_ne,
    ne_eq, not_lt]
  tauto

theorem computeSkippable_eq (always noSkip : Bool) (result : TaskResult)
    (deps : List DepInfo) :
    computeSkippable always noSkip result deps =
      (!always && !noSkip &&
       !(result.SuccessBuildStartTime == 0 || result.SuccessBuildEndTime == 0) &&
       deps.all (depAllowsSkip result)) := by
  unfold computeSkippable
  cases hz : (result.SuccessBuildStartTime == 0 || result.SuccessBuildEndTime == 0) <;>
    cases ha : (!always && !noSkip) <;>
      simp [hz, ha]

/-- C1 (amended): the skippable flag passed to the executor is true iff the
target's `always` flag is unset, the task's `NoSkip` override is unset, the
task's loaded `TaskResult` has both success timestamps non-zero, and every
dependency was itself skipped in this run, has both success timestamps
non-zero, and has a successful build *no newer than* (start and end both
`≤`) this task's prior successful start time. -/
theorem c1_skippable_iff (always noSkip : Bool) (result : TaskResult)
    (deps : List DepInfo) :
    computeSkippable always noSkip result deps = true ↔
      (always = false ∧ noSkip = false ∧
       result.SuccessBuildStartTime ≠ 0 ∧ result.SuccessBuildEndTime ≠ 0 ∧
       ∀ dep ∈ deps, dep.skippedRun = true ∧
         dep.result.SuccessBuildStartTime ≠ 0 ∧
         dep.result.SuccessBuildEndTime ≠ 0 ∧
         dep.result.SuccessBuildStartTime ≤ result.SuccessBuildStartTime ∧
         dep.result.SuccessBuildEndTime ≤ result.SuccessBuildStartTime) := by
  rw [computeSkippable_eq]
  simp only [Bool.and_eq_true, Bool.not_eq_true', Bool.or_eq_false_iff,
    beq_eq_false_iff_ne, ne_eq, List.all_eq_true, depAllowsSkip_iff]
  tauto

/-- C9: when a run succeeds (`task.Err == nil`), `writeTaskResult` sets the
start/end timestamps, promotes them to the success timestamps, resets the
`Skipped` flag, and leaves the `Err` field exactly as it was loaded from the
previously persisted `TaskResult`; hence a result written after a success
that follows an earlier failure still carries the earlier error message
alongside non-zero success timestamps. -/
theorem c9_success_preserves_err (loaded : TaskResult) (startT endT : Int)
    (msg : String) (hErr : loaded.Err = some msg)
    (hs : startT ≠ 0) (he : endT ≠ 0) :
    (writeTaskResult loaded none startT endT).Err = some msg ∧
    (writeTaskResult loaded none startT endT).StartTime = startT ∧
    (writeTaskResult loaded none startT endT).EndTime = endT ∧
    (writeTaskResult loaded none startT endT).SuccessBuildStartTime ≠ 0 ∧
    (writeTaskResult loaded none startT endT).SuccessBuildEndTime ≠ 0 ∧
    (writeTaskResult loaded none startT endT).Skipped = false := by
  simp [writeTaskResult, hErr, hs, he]

/-! ## Claim C2: `FilesCache.Verify` -/

theorem fileEntry_eq_iff (e1 e2 : FileEntry) :
    e1 = e2 ↔ e1.Dir = e2.Dir ∧ e1.MTime = e2.MTime := by
  cases e1; cases e2; simp

theorem compareKeysLoop_none_iff (m2 : List (String × FileEntry)) (title : String)
    (l : List (String × FileEntry)) :
    compareKeysLoop m2 title l = none ↔ ∀ p ∈ l, p.1 ∈ m2.map Prod.fst := by
  induction l with
  | nil => simp [compareKeysLoop]
  | cons p rest ih =>
    obtain ⟨fn, v⟩ := p
    rw [List.forall_mem_cons]
    cases h : m2.lookup fn with
    | none =>
      refine iff_of_false (by simp [compareKeysLoop, h]) ?_
      rintro ⟨h1, -⟩
      exact lookup_none_iff.mp h h1
    | some e =>
      have hmem : fn ∈ m2.map Prod.fst := lookup_isSome_iff.mp (by rw [h]; rfl)
      rw [show compareKeysLoop m2 title ((fn, v) :: rest) = compareKeysLoop m2 title rest
        from by simp [compareKeysLoop, h]]
      rw [ih]
      simp [hmem]

theorem compareFileEntryKeys_none_iff {m1 m2 : List (String × FileEntry)}
    (title : String)
    (nd1 : (m1.map Prod.fst).Nodup) (nd2 : (m2.map Prod.fst).Nodup) :
    compareFileEntryKeys m1 m2 title = none ↔ sameKeys m1 m2 := by
  unfold compareFileEntryKeys
  split
  · rename_i hne
    simp only [ne_eq] at hne
    constructor
    · intro h; cases h
    · intro h
      exact absurd (sameKeys_length_eq nd1 nd2 h) hne
  · rename_i hlen
    simp only [ne_eq, not_not] at hlen
    rw [compareKeysLoop_none_iff]
    constructor
    · intro h
      refine sameKeys_of_subset_len nd1 nd2 hlen ?_
      intro k hk
      obtain ⟨p, hp, rfl⟩ := List.mem_map.mp hk
      exact h p hp
    · intro h p hp
      exact (h p.1).mp (List.mem_map.mpr ⟨p, hp, rfl⟩)

theorem compareExtraLoop_none_iff (m2 : List (String × String))
    (l : List (String × String)) :
    compareExtraLoop m2 l = none ↔ ∀ p ∈ l, p.1 ∈ m2.map Prod.fst := by
  induction l with
  | nil => simp [compareExtraLoop]
  | cons p rest ih =>
    obtain ⟨fn, v⟩ := p
    rw [List.forall_mem_cons]
    cases h : m2.lookup fn with
    | none =>
      refine iff_of_false (by simp [compareExtraLoop, h]) ?_
      rintro ⟨h1, -⟩
      exact lookup_none_iff.mp h h1
    | some e =>
      have hmem : fn ∈ m2.map Prod.fst := lookup_isSome_iff.mp (by rw [h]; rfl)
      rw [show compareExtraLoop m2 ((fn, v) :: rest) = compareExtraLoop m2 rest
        from by simp [compareExtraLoop, h]]
      rw [ih]
      simp [hmem]

theorem compareExtraTaskOutputs_none_iff {m1 m2 : List (String × String)}
    (nd1 : (m1.map Prod.fst).Nodup) (nd2 : (m2.map Prod.fst).Nodup) :
    compareExtraTaskOutputs m1 m2 = none ↔ sameKeys m1 m2 := by
  unfold compareExtraTaskOutputs
  split
  · rename_i hne
    simp only [ne_eq] at hne
    constructor
    · intro h; cases h
    · intro h
      exact absurd (sameKeys_length_eq nd1 nd2 h) hne
  · rename_i hlen
    simp only [ne_eq, not_not] at hlen
    rw [compareExtraLoop_none_iff]
    constructor
    · intro h
      refine sameKeys_of_subset_len nd1 nd2 hlen ?_
      intro k hk
      obtain ⟨p, hp, rfl⟩ := List.mem_map.mp hk
      exact h p hp
    · intro h p hp
      exact (h p.1).mp (List.mem_map.mpr ⟨p, hp, rfl⟩)

theorem compareEntriesLoop_none_iff (m2 : List (String × FileEntry)) (title : String)
    (l : List (String × FileEntry)) :
    compareEntriesLoop m2 title l = none ↔ ∀ p ∈ l, m2.lookup p.1 = some p.2 := by
  induction l with
  | nil => simp [compareEntriesLoop]
  | cons p rest ih =>
    obtain ⟨fn, e1⟩ := p
    rw [List.forall_mem_cons]
    cases h : m2.lookup fn with
    | none =>
      refine iff_of_false (by simp [compareEntriesLoop, h]) ?_
      rintro ⟨h1, -⟩
      simp only [h] at h1
      exact Option.noConfusion h1
    | some e2 =>
      by_cases he : e1 = e2
      · subst he
        rw [show compareEntriesLoop m2 title ((fn, e1) :: rest) = compareEntriesLoop m2 title rest
          from by simp [compareEntriesLoop, h]]
        rw [ih]
        simp [h]
      · have hde : e1.Dir ≠ e2.Dir ∨ e1.MTime ≠ e2.MTime := by
          by_contra hc
          push_neg at hc
          exact he ((fileEntry_eq_iff e1 e2).mpr hc)
        refine iff_of_false ?_ ?_
        · rcases hde with hd | hm
          · simp [compareEntriesLoop, h, hd]
          · by_cases hd : e1.Dir = e2.Dir
            · simp [compareEntriesLoop, h, hd, hm]
            · simp [compareEntriesLoop, h, hd]
        · rintro ⟨h1, -⟩
          simp only [h, Option.some.injEq] at h1
          exact he h1.symm

theorem compareFileEntryMaps_none_iff {m1 m2 : List (String × FileEntry)}
    (title : String)
    (nd1 : (m1.map Prod.fst).Nodup) (nd2 : (m2.map Prod.fst).Nodup) :
    compareFileEntryMaps m1 m2 title = none ↔ ∀ k, m1.lookup k = m2.lookup k := by
  unfold compareFileEntryMaps
  split
  · rename_i hne
    simp only [ne_eq] at hne
    constructor
    · intro h; cases h
    · intro h
      have hsk : sameKeys m1 m2 := by
        intro k
        rw [← lookup_isSome_iff, ← lookup_isSome_iff, h k]
      exact absurd (sameKeys_length_eq nd1 nd2 hsk) hne
  · rename_i hlen
    simp only [ne_eq, not_not] at hlen
    rw [compareEntriesLoop_none_iff]
    constructor
    · intro h k
      by_cases hk : k ∈ m1.map Prod.fst
      · obtain ⟨⟨k', v⟩, hp, hke⟩ := List.mem_map.mp hk
        cases hke
        rw [lookup_some_of_mem nd1 hp, h _ hp]
      · have h1 : m1.lookup k = none := lookup_none_iff.mpr hk
        have hsk : sameKeys m1 m2 := by
          refine sameKeys_of_subset_len nd1 nd2 hlen ?_
          intro a ha
          obtain ⟨p, hp, rfl⟩ := List.mem_map.mp ha
          exact lookup_isSome_iff.mp (by rw [h p hp]; rfl)
        have h2 : m2.lookup k = none :=
          lookup_none_iff.mpr (fun hc => hk ((hsk k).mpr hc))
        rw [h1, h2]
    · intro h p hp
      rw [← h p.1]
      exact lookup_some_of_mem nd1 hp

theorem compareOpaqueLoop_none_iff {l1 l2 : List String}
    (hlen : l1.length = l2.length) :
    compareOpaqueLoop l1 l2 = none ↔ l1 = l2 := by
  induction l1 generalizing l2 with
  | nil =>
    cases l2 with
    | nil => simp [compareOpaqueLoop]
    | cons b bs => simp at hlen
  | cons a as ih =>
    cases l2 with
    | nil => simp at hlen
    | cons b bs =>
      simp only [List.length_cons, Nat.succ_inj] at hlen
      by_cases hab : b = a
      · subst hab
        simp [compareOpaqueLoop, ih hlen]
      · simp only [compareOpaqueLoop, ne_eq, hab, not_false_iff, if_true]
        constructor
        · intro h; cases h
        · intro h
          cases h
          exact absurd rfl hab

theorem checkUpToDate_none_iff (disk : Disk) (saved : List (String × FileEntry))
    (cur : List (String × FileEntry)) :
    checkUpToDate disk saved cur = none ↔
      ∀ p ∈ cur, ∃ e, saved.lookup p.1 = some e ∧ disk p.1 = some e := by
  induction cur with
  | nil => simp [checkUpToDate]
  | cons p rest ih =>
    obtain ⟨fn, v⟩ := p
    rw [List.forall_mem_cons]
    cases hdisk : disk fn with
    | none =>
      refine iff_of_false (by simp [checkUpToDate, hdisk]) ?_
      rintro ⟨⟨e, -, he2⟩, -⟩
      exact Option.noConfusion he2
    | some info =>
      cases hsv : saved.lookup fn with
      | none =>
        refine iff_of_false (by simp [checkUpToDate, hdisk, hsv]) ?_
        rintro ⟨⟨e, he1, -⟩, -⟩
        exact Option.noConfusion he1
      | some entry =>
        by_cases hmatch : entry.Dir ≠ info.Dir ∨ entry.MTime ≠ info.MTime
        · refine iff_of_false ?_ ?_
          · simp only [checkUpToDate, hdisk, hsv]
            rw [if_pos hmatch]
            simp
          · rintro ⟨⟨e, he1, he2⟩, -⟩
            cases he1
            cases he2
            rcases hmatch with hd | hm
            · exact hd rfl
            · exact hm rfl
        · have he : entry = info := by
            push_neg at hmatch
            exact (fileEntry_eq_iff entry info).mpr hmatch
          subst he
          rw [show checkUpToDate disk saved ((fn, v) :: rest) = checkUpToDate disk saved rest
            from by simp only [checkUpToDate, hdisk, hsv]; rw [if_neg hmatch]]
          rw [ih]
          exact ⟨fun hr => ⟨⟨entry, rfl, rfl⟩, hr⟩, fun h => h.2⟩

theorem verify_some_true_iff (saved : FileCacheContent) (current : FileCacheContent)
    (disk : Disk) :
    (verify (some saved) current disk).1 = true ↔
      (compareFileEntryKeys saved.Outputs current.Outputs "outputs" = none ∧
       compareFileEntryKeys saved.Generates current.Generates "generates" = none ∧
       compareFileEntryMaps saved.Inputs current.Inputs "inputs" = none ∧
       compareExtraTaskOutputs saved.TaskOutputs.Extra current.TaskOutputs.Extra = none ∧
       (if saved.Opaque.length ≠ current.Opaque.length
        then some "Cache opaque size differs"
        else compareOpaqueLoop saved.Opaque current.Opaque) = none ∧
       checkUpToDate disk saved.Outputs current.Outputs = none ∧
       checkUpToDate disk saved.Generates current.Generates = none) := by
  unfold verify
  repeat' split
  all_goals simp_all

theorem verify_false_logs (saved? : Option FileCacheContent)
    (current : FileCacheContent) (disk : Disk) :
    (verify saved? current disk).1 = false → (verify saved? current disk).2 ≠ [] := by
  unfold verify
  repeat' split
  all_goals simp_all

/-- C2: with the Go-map no-duplicate-keys invariant on both states, `Verify`
returns true iff the saved state exists and parses, the saved outputs and
generates maps have the same key sets as the current ones, the saved inputs
map equals the current one element-for-element, the saved extra-output key
set equals the current one, the saved opaque list equals the current one
element-wise in order, and every path in the current outputs and generates
maps exists on disk with exactly the is-directory flag and modification time
recorded in the saved state; moreover whenever `Verify` returns false it has
logged at least one diagnostic line. -/
theorem c2_verify_iff (saved? : Option FileCacheContent)
    (current : FileCacheContent) (disk : Disk)
    (hc : current.WF) (hs : ∀ s ∈ saved?, s.WF) :
    ((verify saved? current disk).1 = true ↔
      ∃ saved, saved? = some saved ∧
        sameKeys saved.Outputs current.Outputs ∧
        sameKeys saved.Generates current.Generates ∧
        (∀ k, saved.Inputs.lookup k = current.Inputs.lookup k) ∧
        sameKeys saved.TaskOutputs.Extra current.TaskOutputs.Extra ∧
        saved.Opaque = current.Opaque ∧
        (∀ p ∈ current.Outputs, ∃ e,
          saved.Outputs.lookup p.1 = some e ∧ disk p.1 = some e) ∧
        (∀ p ∈ current.Generates, ∃ e,
          saved.Generates.lookup p.1 = some e ∧ disk p.1 = some e)) ∧
    ((verify saved? current disk).1 = false → (verify saved? current disk).2 ≠ []) := by
  refine ⟨?_, verify_false_logs saved? current disk⟩
  cases saved? with
  | none =>
    simp only [verify]
    constructor
    · intro h; cases h
    · rintro ⟨saved, h, -⟩; cases h
  | some saved =>
    obtain ⟨hsi, hso, hsg, hse⟩ := hs saved rfl
    obtain ⟨hci, hco, hcg, hce⟩ := hc
    rw [verify_some_true_iff]
    have hop : (if saved.Opaque.length ≠ current.Opaque.length
        then some "Cache opaque size differs"
        else compareOpaqueLoop saved.Opaque current.Opaque) = none ↔
        saved.Opaque = current.Opaque := by
      split
      · rename_i hne
        simp only [ne_eq] at hne
        constructor
        · intro h; cases h
        · intro h; exact absurd (congrArg List.length h) hne
      · rename_i hlen
        simp only [ne_eq, not_not] at hlen
        exact compareOpaqueLoop_none_iff hlen
    rw [compareFileEntryKeys_none_iff "outputs" hso hco,
      compareFileEntryKeys_none_iff "generates" hsg hcg,
      compareFileEntryMaps_none_iff "inputs" hsi hci,
      compareExtraTaskOutputs_none_iff hse hce, hop,
      checkUpToDate_none_iff, checkUpToDate_none_iff]
    constructor
    · intro h
      exact ⟨saved, rfl, h.1, h.2.1, h.2.2.1, h.2.2.2.1, h.2.2.2.2.1,
        h.2.2.2.2.2.1, h.2.2.2.2.2.2⟩
    · rintro ⟨saved', heq, h⟩
      cases heq
      exact h

/-- Witness for C2 at a concrete input: an empty saved state, an empty
current state and an empty disk verify successfully. -/
theorem c2_verify_iff_witness :
    (({} : FileCacheContent).WF ∧
     (∀ s ∈ (some ({} : FileCacheContent)), s.WF)) ∧
    (((verify (some {}) {} (fun _ => none)).1 = true ↔
      ∃ saved, (some ({} : FileCacheContent)) = some saved ∧
        sameKeys saved.Outputs ({} : FileCacheContent).Outputs ∧
        sameKeys saved.Generates ({} : FileCacheContent).Generates ∧
        (∀ k, saved.Inputs.lookup k = ({} : FileCacheContent).Inputs.lookup k) ∧
        sameKeys saved.TaskOutputs.Extra ({} : FileCacheContent).TaskOutputs.Extra ∧
        saved.Opaque = ({} : FileCacheContent).Opaque ∧
        (∀ p ∈ ({} : FileCacheContent).Outputs, ∃ e,
          saved.Outputs.lookup p.1 = some e ∧ (fun (_ : String) => (none : Option FileEntry)) p.1 = some e) ∧
        (∀ p ∈ ({} : FileCacheContent).Generates, ∃ e,
          saved.Generates.lookup p.1 = some e ∧ (fun (_ : String) => (none : Option FileEntry)) p.1 = some e)) ∧
    ((verify (some {}) {} (fun _ => none)).1 = false →
      (verify (some {}) {} (fun _ => none)).2 ≠ [])) :=
  ⟨⟨by decide, by simp; decide⟩,
    c2_verify_iff (some {}) {} (fun _ => none) (by decide) (by simp; decide)⟩

/-! ## Claim C7: `Repo.LocateRoot` -/

/-- C7, counterexample: with a (non-absolute) root file in `/a/b` and
another in `/a`, locating from working directory `/a/b` sets the repository
root to `/a` — not to the nearest ancestor `/a/b` containing a
root-metadata file, as the claim states. (Paths are written
innermost-first: `/a/b` is `["b", "a"]`.) -/
theorem c7_counterexample :
    c7fs ["b", "a"] = .ok ⟨false⟩ ∧
    locateRoot c7fs ["b", "a"] = .ok (⟨false⟩, ["a"]) ∧
    (["a"] : DirPath) ≠ ["b", "a"] := by
  refine ⟨by decide, ?_, by decide⟩
  rfl

theorem locateLoop_absolute (fs : DirPath → LoadRootResult) (wd : DirPath)
    (m : RootMeta) (d : DirPath) (h : m.AbsoluteRoot = true) :
    locateLoop fs wd (some (m, d)) = .ok (some (m, d)) := by
  cases wd <;> simp [locateLoop, absFound, h]

theorem locateLoop_spec (fs : DirPath → LoadRootResult)
    (hne : ∀ d, fs d ≠ .otherErr) :
    ∀ (wd : DirPath) (found : Option (RootMeta × DirPath)),
      (∀ r ∈ found, r.1.AbsoluteRoot = false) →
      locateLoop fs wd found =
        match (okRoots fs wd).find? (fun r => r.1.AbsoluteRoot) with
        | some r => .ok (some r)
        | none =>
          match (okRoots fs wd).getLast? with
          | some r => .ok (some r)
          | none => .ok found := by
  intro wd
  induction wd with
  | nil =>
    intro found hfound
    have hguard : absFound found = false := by
      cases found with
      | none => rfl
      | some r => simpa [absFound] using hfound r rfl
    rw [show locateLoop fs [] found =
        (if absFound found then .ok found
         else match fs [] with
           | .otherErr => .error .loadErr
           | .notExist => .ok found
           | .ok m => .ok (some (m, []))) from rfl]
    rw [hguard]
    simp only [Bool.false_eq_true, if_false]
    cases hfs : fs [] with
    | otherErr => exact absurd hfs (hne [])
    | notExist => simp [okRoots, ancList, hfs]
    | ok m =>
      simp only [okRoots, ancList, List.tails, List.filterMap, hfs]
      cases habs : m.AbsoluteRoot <;> simp [habs, List.find?, List.getLast?]
  | cons seg parent ih =>
    intro found hfound
    have hguard : absFound found = false := by
      cases found with
      | none => rfl
      | some r => simpa [absFound] using hfound r rfl
    rw [show locateLoop fs (seg :: parent) found =
        (if absFound found then .ok found
         else match fs (seg :: parent) with
           | .otherErr => .error .loadErr
           | .notExist => locateLoop fs parent found
           | .ok m => locateLoop fs parent (some (m, seg :: parent))) from rfl]
    rw [hguard]
    simp only [Bool.false_eq_true, if_false]
    have hanc : okRoots fs (seg :: parent) =
        (match fs (seg :: parent) with
         | .ok m => some (m, seg :: parent)
         | _ => none).toList ++ okRoots fs parent := by
      simp only [okRoots, ancList]
      rw [show (seg :: parent).tails = (seg :: parent) :: parent.tails from by
        simp [List.tails]]
      rw [List.filterMap_cons]
      cases fs (seg :: parent) <;> simp
    cases hfs : fs (seg :: parent) with
    | otherErr => exact absurd hfs (hne _)
    | notExist =>
      rw [hanc, hfs]
      simp only [Option.toList, List.nil_append]
      exact ih found hfound
    | ok m =>
      rw [hanc, hfs]
      simp only [Option.toList, List.singleton_append]
      cases habs : m.AbsoluteRoot with
      | true =>
        rw [locateLoop_absolute fs parent m (seg :: parent) habs]
        simp [List.find?, habs]
      | false =>
        rw [ih (some (m, seg :: parent)) (by simpa using habs)]
        rw [show ((m, seg :: parent) :: okRoots fs parent).find?
              (fun r => r.1.AbsoluteRoot) = (okRoots fs parent).find?
              (fun r => r.1.AbsoluteRoot) from by simp [List.find?, habs]]
        cases hfind : (okRoots fs parent).find? (fun r => r.1.AbsoluteRoot) with
        | some r => rfl
        | none =>
          cases hrest : okRoots fs parent with
          | nil => simp
          | cons q qs =>
            rw [show ((m, seg :: parent) :: q :: qs).getLast? = (q :: qs).getLast?
              from by simp [List.getLast?]]
            obtain ⟨r, hr⟩ := Option.isSome_iff_exists.mp
              (List.getLast?_isSome.mpr (by simp : (q :: qs) ≠ []))
            rw [hr]

/-- C7 (amended): assuming every ancestor load either succeeds or fails
with `os.ErrNotExist`, `LocateRoot` sets the repository root to the nearest
ancestor whose root file is marked "absolute root" when one exists;
otherwise to the *farthest* (topmost) ancestor containing a root-metadata
file — not the nearest, as the claim states; and it fails with an error
wrapping `os.ErrNotExist` exactly when no ancestor contains a root-metadata
file. -/
theorem c7_locate_characterization (fs : DirPath → LoadRootResult)
    (wd : DirPath) (hne : ∀ d, fs d ≠ .otherErr) :
    locateRoot fs wd =
      match (okRoots fs wd).find? (fun r => r.1.AbsoluteRoot) with
      | some r => .ok r
      | none =>
        match (okRoots fs wd).getLast? with
        | some r => .ok r
        | none => .error .notExist := by
  unfold locateRoot
  rw [locateLoop_spec fs hne wd none (by simp)]
  cases (okRoots fs wd).find? (fun r => r.1.AbsoluteRoot) with
  | some r => rfl
  | none =>
    cases (okRoots fs wd).getLast? with
    | some r => rfl
    | none => rfl

/-- Witness for C7 at a concrete input: the counterexample filesystem has
no `otherErr` ancestor, and the characterization applied at `/a/b` returns
the topmost root `/a`. -/
theorem c7_locate_characterization_witness :
    (∀ d, c7fs d ≠ .otherErr) ∧
    (locateRoot c7fs ["b", "a"] =
      match (okRoots c7fs ["b", "a"]).find? (fun r => r.1.AbsoluteRoot) with
      | some r => .ok r
      | none =>
        match (okRoots c7fs ["b", "a"]).getLast? with
        | some r => .ok r
        | none => .error .notExist) :=
  ⟨fun d => by unfold c7fs; split <;> simp,
   c7_locate_characterization c7fs ["b", "a"]
     (fun d => by unfold c7fs; split <;> simp)⟩

/-! ## Claim C5: `Repo.ResolveTargets` on bare target patterns -/

theorem scanChunkSplit_literal (l : Str) (h1 : '*' ∉ l) (h2 : '\\' ∉ l) :
    ∀ inrange, scanChunkSplit inrange l = (l, []) := by
  induction l with
  | nil => intro inrange; rfl
  | cons c cs ih =>
    intro inrange
    simp only [List.mem_cons, not_or] at h1 h2
    obtain ⟨hc1, hcs1⟩ := h1
    obtain ⟨hc2, hcs2⟩ := h2
    have ihr := ih hcs1 hcs2
    unfold scanChunkSplit
    rw [if_neg (by exact fun h => hc2 h.symm)]
    by_cases hb : c = '['
    · simp [hb, ihr true]
    · rw [if_neg hb]
      by_cases hb2 : c = ']'
      · simp [hb2, ihr false]
      · rw [if_neg hb2, if_neg (by exact fun h => hc1 h.symm)]
        simp [ihr inrange]

theorem scanChunk_literal (l : Str) (h1 : '*' ∉ l) (h2 : '\\' ∉ l) :
    scanChunk l = (false, l, []) := by
  unfold scanChunk
  have hstrip : stripStars l = (false, l) := by
    cases l with
    | nil => rfl
    | cons c cs =>
      have : ¬ c = '*' := fun h => h1 (h ▸ List.mem_cons_self c cs)
      unfold stripStars
      split
      · rename_i heq
        cases heq
        exact absurd rfl this
      · rfl
  rw [hstrip]
  simp [scanChunkSplit_literal l h1 h2]

/-- One-step unfolding of `matchChunkF` at a non-empty chunk (definitional;
spelt out once so later proofs unfold exactly one loop iteration). -/
theorem matchChunkF_succ_cons (fuel : Nat) (c : Char) (cs s : Str) (failed0 : Bool) :
    matchChunkF (fuel + 1) (c :: cs) s failed0 =
      (let failed := failed0 || s.isEmpty
       if c = '[' then
         let r := if failed then '\u0000' else s.headD '\u0000'
         let s' := if failed then s else s.tail
         let nc := caretSplit cs
         match parseRangesF r (nc.2.length + 1) nc.2 0 false with
         | .error _ => .error ()
         | .ok mr =>
           matchChunkF fuel mr.2 s' (if mr.1 = nc.1 then true else failed)
       else if c = '?' then
         let failed' := failed || (s.headD '\u0000' == '/')
         let s' := if failed then s else s.tail
         matchChunkF fuel cs s' failed'
       else if c = '\\' then
         match cs with
         | [] => .error ()
         | d :: ds =>
           let failed' := failed || (decide (d ≠ s.headD '\u0000'))
           let s' := if failed then s else s.tail
           matchChunkF fuel ds s' failed'
       else
         let failed' := failed || (decide (c ≠ s.headD '\u0000'))
         let s' := if failed then s else s.tail
         matchChunkF fuel cs s' failed') := rfl

/-- One-step unfolding of the `Pattern` loop for a non-empty pattern. -/
theorem matchGoF_succ (fuel : Nat) (pattern name : Str) (hp : pattern ≠ []) :
    matchGoF (fuel + 1) pattern name =
      (let star := (scanChunk pattern).1
       let chunk := (scanChunk pattern).2.1
       let rest := (scanChunk pattern).2.2
       if star ∧ chunk = [] then .ok (! name.contains '/')
       else
         match matchChunk chunk name with
         | .error _ => .error ()
         | .ok r =>
           match r with
           | some t =>
             if t = [] ∨ rest ≠ [] then matchGoF fuel rest t
             else
               if star then
                 match starLoop chunk (rest = []) name with
                 | .error _ => .error ()
                 | .ok r' =>
                   match r' with
                   | some t' => matchGoF fuel rest t'
                   | none => checkRemainderF (rest.length + 1) rest
               else checkRemainderF (rest.length + 1) rest
           | none =>
             if star then
               match starLoop chunk (rest = []) name with
               | .error _ => .error ()
               | .ok r' =>
                 match r' with
                 | some t' => matchGoF fuel rest t'
                 | none => checkRemainderF (rest.length + 1) rest
             else checkRemainderF (rest.length + 1) rest) := by
  cases pattern with
  | nil => exact absurd rfl hp
  | cons c cs => rfl

theorem matchGoF_succ_nil (fuel : Nat) (name : Str) :
    matchGoF (fuel + 1) [] name = .ok (decide (name = [])) := rfl

/-- Once `failed` is set, a meta-free chunk can only yield `none`. -/
theorem matchChunkF_literal_failed (l : Str)
    (h1 : '?' ∉ l) (h2 : '[' ∉ l) (h3 : '\\' ∉ l) :
    ∀ s, matchChunkF (l.length + 1) l s true = .ok none := by
  induction l with
  | nil => intro s; rfl
  | cons c cs ih =>
    intro s
    simp only [List.mem_cons, not_or] at h1 h2 h3
    obtain ⟨hc1, hcs1⟩ := h1
    obtain ⟨hc2, hcs2⟩ := h2
    obtain ⟨hc3, hcs3⟩ := h3
    have d1 : ¬ c = '?' := fun h => hc1 h.symm
    have d2 : ¬ c = '[' := fun h => hc2 h.symm
    have d3 : ¬ c = '\\' := fun h => hc3 h.symm
    show matchChunkF (cs.length + 1 + 1) (c :: cs) s true = .ok none
    rw [matchChunkF_succ_cons]
    have hrec := ih hcs1 hcs2 hcs3
    simp [d1, d2, d3, hrec]

/-- A meta-free chunk matches exactly its own characters, consuming them. -/
theorem matchChunkF_literal (l : Str)
    (h1 : '?' ∉ l) (h2 : '[' ∉ l) (h3 : '\\' ∉ l) :
    ∀ s, matchChunkF (l.length + 1) l s false =
      .ok (if l.isPrefixOf s then some (s.drop l.length) else none) := by
  induction l with
  | nil => intro s; simp [matchChunkF, List.isPrefixOf]
  | cons c cs ih =>
    intro s
    simp only [List.mem_cons, not_or] at h1 h2 h3
    obtain ⟨hc1, hcs1⟩ := h1
    obtain ⟨hc2, hcs2⟩ := h2
    obtain ⟨hc3, hcs3⟩ := h3
    have d1 : ¬ c = '?' := fun h => hc1 h.symm
    have d2 : ¬ c = '[' := fun h => hc2 h.symm
    have d3 : ¬ c = '\\' := fun h => hc3 h.symm
    show matchChunkF (cs.length + 1 + 1) (c :: cs) s false = _
    cases s with
    | nil =>
      rw [matchChunkF_succ_cons]
      have hrec := matchChunkF_literal_failed cs hcs1 hcs2 hcs3
      simp [d1, d2, d3, hrec, List.isPrefixOf]
    | cons a as =>
      rw [matchChunkF_succ_cons]
      by_cases hca : c = a
      · subst hca
        have hrec := ih hcs1 hcs2 hcs3 as
        simp [d1, d2, d3, hrec, List.isPrefixOf]
      · have hrec := matchChunkF_literal_failed cs hcs1 hcs2 hcs3
        simp [d1, d2, d3, hca, hrec, List.isPrefixOf]

/-- For a literal pattern (no meta-character, no escape), `filepath.Match`
succeeds exactly on the pattern itself. -/
theorem matchGo_literal (l n : Str) (hlit : isLiteralGo l = true) :
    matchGo l n = .ok (decide (n = l)) := by
  have h1 : '*' ∉ l := by
    intro hm
    simpa using (List.all_eq_true.mp hlit) '*' hm
  have h2 : '?' ∉ l := by
    intro hm
    simpa using (List.all_eq_true.mp hlit) '?' hm
  have h3 : '[' ∉ l := by
    intro hm
    simpa using (List.all_eq_true.mp hlit) '[' hm
  have h4 : '\\' ∉ l := by
    intro hm
    simpa using (List.all_eq_true.mp hlit) '\\' hm
  unfold matchGo
  cases l with
  | nil => simp [matchGoF]
  | cons c cs =>
    show matchGoF (cs.length + 1 + 1) (c :: cs) n = _
    rw [matchGoF_succ _ _ _ (by simp)]
    rw [scanChunk_literal _ h1 h4]
    have hmc : matchChunk (c :: cs) n =
        .ok (if (c :: cs).isPrefixOf n then some (n.drop (c :: cs).length) else none) :=
      matchChunkF_literal _ h2 h3 h4 n
    by_cases hpre : (c :: cs).isPrefixOf n = true
    · rw [if_pos hpre] at hmc
      obtain ⟨t, ht⟩ := List.isPrefixOf_iff_prefix.mp hpre
      have hdrop : n.drop (c :: cs).length = t := by
        rw [← ht, List.drop_left]
      by_cases ht0 : t = []
      · subst ht0
        have hn : n = c :: cs := by rw [← ht, List.append_nil]
        simp only [hmc, hdrop]
        simp [hn, matchGoF_succ_nil]
      · have hn : ¬ n = c :: cs := by
          intro he
          rw [he] at ht
          have := congrArg List.length ht
          simp at this
          exact ht0 this
        simp only [hmc, hdrop]
        simp [ht0, hn, checkRemainderF]
    · rw [if_neg hpre] at hmc
      have hn : ¬ n = c :: cs := by
        intro he
        exact hpre (he ▸ List.isPrefixOf_iff_prefix.mpr (List.prefix_refl _))
      simp only [hmc]
      simp [hn, checkRemainderF]

theorem splitColon_no_colon (p : Str) (h : ':' ∉ p) : splitColon p = [p] := by
  induction p with
  | nil => rfl
  | cons c cs ih =>
    simp only [List.mem_cons, not_or] at h
    unfold splitColon
    rw [if_neg (by exact fun he => h.1 he.symm), ih h.2]

theorem collectFromNames_spec (tp pname : Str) (names : List Str)
    (hok : ∀ n ∈ names, matchGo tp n ≠ .error ()) :
    collectFromNames tp pname names =
      .ok ((names.filter (matchedB tp)).map (fun n => (pname, n)),
        names.any fun n => matchedB tp n && decide (n ≠ tp)) := by
  induction names with
  | nil => rfl
  | cons n ns ih =>
    have hn := hok n (List.mem_cons_self _ _)
    have ihr := ih fun m hm => hok m (List.mem_cons_of_mem _ hm)
    unfold collectFromNames
    cases hm : matchGo tp n with
    | error e => exact absurd (by cases e; exact hm) hn
    | ok b =>
      cases b with
      | true =>
        rw [ihr]
        have hmb : matchedB tp n = true := by simp [matchedB, hm]
        simp [hmb, Bool.or_comm]
      | false =>
        have hmb : matchedB tp n = false := by simp [matchedB, hm]
        rw [ihr]
        simp [hmb]

theorem collectTargets_spec (tp : Str) (projects : List ProjectT)
    (hok : ∀ pr ∈ projects, ∀ n ∈ pr.targets, matchGo tp n ≠ .error ()) :
    collectTargets tp projects =
      .ok (allMatches tp projects,
        projects.any fun pr => pr.targets.any fun n => matchedB tp n && decide (n ≠ tp)) := by
  induction projects with
  | nil => rfl
  | cons pr prs ih =>
    have ihr := ih fun q hq => hok q (List.mem_cons_of_mem _ hq)
    unfold collectTargets
    rw [collectFromNames_spec tp pr.name pr.targets
      (fun n hn => hok pr (List.mem_cons_self _ _) n hn), ihr]
    simp [allMatches]

/-- C5 (amended): for a bare target pattern (no colon, non-empty after
trimming): when the pattern is a literal (no glob meta-character, no
escape), the resolver returns every `(project, target)` pair whose target
name matches, with `ErrAmbiguousMatch` exactly when more than one target
matched; when the pattern is a valid glob and at least one *matched* target
name differs from the pattern text (the code's `wildcardMatch` test — in
particular whenever a proper wildcard match occurred), all cross-project
matches are returned with no error. -/
theorem c5_resolve_bare (projects : List ProjectT) (current : Option ProjectT)
    (p : Str) (hnc : ':' ∉ p) (hne : trimSpace p ≠ []) :
    (isLiteralGo (trimSpace p) = true →
      resolveTargets projects current p =
        (allMatches (trimSpace p) projects,
         if 1 < (allMatches (trimSpace p) projects).length
         then some .ambiguousMatch else none)) ∧
    ((∀ pr ∈ projects, ∀ n ∈ pr.targets, matchGo (trimSpace p) n ≠ .error ()) →
     (∃ pr ∈ projects, ∃ n ∈ pr.targets,
        matchedB (trimSpace p) n = true ∧ n ≠ trimSpace p) →
      resolveTargets projects current p =
        (allMatches (trimSpace p) projects, none)) := by
  have hsplit : splitColon p = [p] := splitColon_no_colon p hnc
  constructor
  · intro hlit
    have hok : ∀ pr ∈ projects, ∀ n ∈ pr.targets, matchGo (trimSpace p) n ≠ .error () := by
      intro pr _ n _
      rw [matchGo_literal _ _ hlit]
      exact fun h => by cases h
    unfold resolveTargets
    rw [hsplit]
    simp only [List.length_cons, List.length_nil, List.headD_cons, if_true, if_false,
      Nat.zero_add, show ¬ (2 < 1) from by omega, hne]
    rw [collectTargets_spec _ _ hok]
    have hwild : (projects.any fun pr =>
        pr.targets.any fun n => matchedB (trimSpace p) n && decide (n ≠ trimSpace p)) = false := by
      rw [List.any_eq_false]
      intro pr hpr
      simp only [Bool.not_eq_true]
      rw [List.any_eq_false]
      intro n hn
      simp only [Bool.not_eq_true]
      by_cases hd : n = trimSpace p
      · subst hd
        simp
      · have hm : matchedB (trimSpace p) n = false := by
          simp only [matchedB, matchGo_literal _ _ hlit]
          simp [hd]
        simp [hm]
    rw [hwild]
    by_cases hempty : allMatches (trimSpace p) projects = []
    · simp [hempty]
    · by_cases hlen : 1 < (allMatches (trimSpace p) projects).length
      · simp [hempty, hlen]
      · simp [hempty, hlen]
  · intro hok hex
    unfold resolveTargets
    rw [hsplit]
    simp only [List.length_cons, List.length_nil, List.headD_cons, if_true, if_false,
      Nat.zero_add, show ¬ (2 < 1) from by omega, hne]
    rw [collectTargets_spec _ _ hok]
    have hwild : (projects.any fun pr =>
        pr.targets.any fun n => matchedB (trimSpace p) n && decide (n ≠ trimSpace p)) = true := by
      obtain ⟨pr, hpr, n, hn, hm, hne'⟩ := hex
      refine List.any_eq_true.mpr ⟨pr, hpr, List.any_eq_true.mpr ⟨n, hn, ?_⟩⟩
      simp [hm, hne']
    rw [hwild]
    have hnonempty : allMatches (trimSpace p) projects ≠ [] := by
      obtain ⟨pr, hpr, n, hn, hm, -⟩ := hex
      intro hempty
      have : (pr.name, n) ∈ allMatches (trimSpace p) projects := by
        unfold allMatches
        refine List.mem_flatMap.mpr ⟨pr, hpr, ?_⟩
        exact List.mem_map.mpr ⟨n, List.mem_filter.mpr ⟨hn, hm⟩, rfl⟩
      rw [hempty] at this
      cases this
    simp [hnonempty]

/-- Witness for C5 at a concrete input: two projects `p` and `q` both
defining target `lib`; resolving the bare literal `lib` returns both pairs
together with `ErrAmbiguousMatch`. -/
theorem c5_resolve_bare_witness :
    (':' ∉ ("lib".data : Str)) ∧ trimSpace "lib".data ≠ [] ∧
    isLiteralGo (trimSpace "lib".data) = true ∧
    resolveTargets [⟨['p'], ["lib".data]⟩, ⟨['q'], ["lib".data]⟩] none "lib".data =
      (allMatches (trimSpace "lib".data) [⟨['p'], ["lib".data]⟩, ⟨['q'], ["lib".data]⟩],
       if 1 < (allMatches (trimSpace "lib".data)
           [⟨['p'], ["lib".data]⟩, ⟨['q'], ["lib".data]⟩]).length
       then some .ambiguousMatch else none) :=
  ⟨by decide, by decide, by decide,
    (c5_resolve_bare [⟨['p'], ["lib".data]⟩, ⟨['q'], ["lib".data]⟩] none "lib".data
      (by decide) (by decide)).1 (by decide)⟩

/-- C5, counterexample: the bare pattern `a*` *is* a glob (it contains the
meta-character `*`), yet when two projects both define a target literally
named `a*`, resolving it returns both matches *with* `ErrAmbiguousMatch` —
the code keys the ambiguity check on whether some matched name differs from
the pattern, not on the pattern's syntax. -/
theorem c5_counterexample :
    ('*' ∈ (['a', '*'] : Str)) ∧
    resolveTargets c5projects none ['a', '*'] =
      ([(['p'], ['a', '*']), (['q'], ['a', '*'])], some .ambiguousMatch) := by
  exact ⟨by decide, by decide⟩

/-! ## Claim C4: cycle detection (`Prepare` / `Plan`) -/

theorem mem_releaseRound_iff {g : TaskGraphM} {r : List Str} {t : Str} :
    t ∈ releaseRound g r ↔
      t ∈ g.tasks ∧ (t ∈ r ∨ ∀ d ∈ g.depOn t, d ∈ r) := by
  simp [releaseRound, List.mem_filter, List.all_eq_true]

theorem releaseRound_mono {g : TaskGraphM} {r1 r2 : List Str}
    (h : ∀ x, x ∈ r1 → x ∈ r2) :
    ∀ t, t ∈ releaseRound g r1 → t ∈ releaseRound g r2 := by
  intro t ht
  rw [mem_releaseRound_iff] at ht ⊢
  refine ⟨ht.1, ?_⟩
  rcases ht.2 with h1 | h2
  · exact Or.inl (h t h1)
  · exact Or.inr fun d hd => h d (h2 d hd)

theorem releasedAfter_succ_mono (g : TaskGraphM) :
    ∀ n t, t ∈ releasedAfter g n → t ∈ releasedAfter g (n + 1) := by
  intro n
  induction n with
  | zero => intro t ht; cases ht
  | succ n ih =>
    show ∀ t, t ∈ releaseRound g (releasedAfter g n) →
      t ∈ releaseRound g (releasedAfter g (n + 1))
    exact releaseRound_mono ih

theorem releasedAfter_le_mono (g : TaskGraphM) {m n : Nat} (h : m ≤ n) :
    ∀ t, t ∈ releasedAfter g m → t ∈ releasedAfter g n := by
  induction n with
  | zero =>
    intro t ht
    cases Nat.le_zero.mp h
    exact ht
  | succ n ih =>
    rcases Nat.lt_or_ge m (n + 1) with hlt | hge
    · intro t ht
      exact releasedAfter_succ_mono g n t (ih (Nat.lt_succ_iff.mp hlt) t ht)
    · cases Nat.le_antisymm h hge
      exact fun t ht => ht

theorem releasedAfter_subset_tasks (g : TaskGraphM) :
    ∀ n t, t ∈ releasedAfter g n → t ∈ g.tasks := by
  intro n
  cases n with
  | zero => intro t ht; cases ht
  | succ n => exact fun t ht => (mem_releaseRound_iff.mp ht).1

theorem releasedAfter_acc (g : TaskGraphM) :
    ∀ n t, t ∈ releasedAfter g n → Acc (depRel g) t := by
  intro n
  induction n with
  | zero => intro t ht; cases ht
  | succ n ih =>
    intro t ht
    rw [show releasedAfter g (n + 1) = releaseRound g (releasedAfter g n) from rfl,
      mem_releaseRound_iff] at ht
    rcases ht.2 with h1 | h2
    · exact ih t h1
    · exact Acc.intro t fun d hd => ih d (h2 d hd.2)

theorem exists_uniform_round (g : TaskGraphM) (l : List Str)
    (h : ∀ d ∈ l, ∃ n, d ∈ releasedAfter g n) :
    ∃ N, ∀ d ∈ l, d ∈ releasedAfter g N := by
  induction l with
  | nil => exact ⟨0, by simp⟩
  | cons a as ih =>
    obtain ⟨Na, hNa⟩ := h a (List.mem_cons_self _ _)
    obtain ⟨Nas, hNas⟩ := ih fun d hd => h d (List.mem_cons_of_mem _ hd)
    refine ⟨max Na Nas, ?_⟩
    intro d hd
    rcases List.mem_cons.mp hd with rfl | hmem
    · exact releasedAfter_le_mono g (Nat.le_max_left _ _) d hNa
    · exact releasedAfter_le_mono g (Nat.le_max_right _ _) d (hNas d hmem)

theorem acc_mem_released (g : TaskGraphM)
    (hclosed : ∀ t ∈ g.tasks, ∀ d ∈ g.depOn t, d ∈ g.tasks) (t : Str)
    (hacc : Acc (depRel g) t) :
    t ∈ g.tasks → ∃ n, t ∈ releasedAfter g n := by
  induction hacc with
  | intro x hx ih =>
    intro hxt
    have hdep : ∀ d ∈ g.depOn x, ∃ n, d ∈ releasedAfter g n := by
      intro d hd
      exact ih d ⟨hxt, hd⟩ (hclosed x hxt d hd)
    obtain ⟨N, hN⟩ := exists_uniform_round g (g.depOn x) hdep
    refine ⟨N + 1, ?_⟩
    rw [show releasedAfter g (N + 1) = releaseRound g (releasedAfter g N) from rfl,
      mem_releaseRound_iff]
    exact ⟨hxt, Or.inr hN⟩

theorem releaseRound_congr {g : TaskGraphM} {r1 r2 : List Str}
    (h : ∀ x, x ∈ r1 ↔ x ∈ r2) :
    ∀ t, t ∈ releaseRound g r1 ↔ t ∈ releaseRound g r2 :=
  fun t => ⟨releaseRound_mono (fun x => (h x).mp) t,
    releaseRound_mono (fun x => (h x).mpr) t⟩

theorem releasedAfter_stable (g : TaskGraphM) {n : Nat}
    (h : ∀ x, x ∈ releasedAfter g n ↔ x ∈ releasedAfter g (n + 1)) :
    ∀ m, n ≤ m → ∀ x, x ∈ releasedAfter g m ↔ x ∈ releasedAfter g n := by
  intro m hm
  induction m with
  | zero =>
    cases Nat.le_zero.mp hm
    exact fun x => Iff.rfl
  | succ m ih =>
    rcases Nat.lt_or_ge n (m + 1) with hlt | hge
    · have hnm : n ≤ m := Nat.lt_succ_iff.mp hlt
      have hmn := ih hnm
      have hstep : ∀ x, x ∈ releasedAfter g (m + 1) ↔ x ∈ releasedAfter g (n + 1) :=
        releaseRound_congr hmn
      intro x
      rw [hstep x, ← h x]
    · cases Nat.le_antisymm hm hge
      exact fun x => Iff.rfl

theorem releasedAfter_nodup (g : TaskGraphM) (hnd : g.tasks.Nodup) :
    ∀ n, (releasedAfter g n).Nodup := by
  intro n
  cases n with
  | zero => exact List.nodup_nil
  | succ n => exact hnd.filter _

theorem released_growth (g : TaskGraphM) :
    ∀ n, (∀ x, x ∈ releasedAfter g n ↔ x ∈ releasedAfter g (n + 1)) ∨
      n ≤ (releasedAfter g n).toFinset.card := by
  intro n
  induction n with
  | zero => exact Or.inr (Nat.zero_le _)
  | succ n ih =>
    by_cases hst : ∀ x, x ∈ releasedAfter g n ↔ x ∈ releasedAfter g (n + 1)
    · exact Or.inl (releaseRound_congr hst)
    · right
      have hcard : n ≤ (releasedAfter g n).toFinset.card := by
        rcases ih with h | h
        · exact absurd h hst
        · exact h
      push_neg at hst
      obtain ⟨x, hx⟩ := hst
      have hmono := releasedAfter_succ_mono g n
      have hxin : x ∈ releasedAfter g (n + 1) ∧ x ∉ releasedAfter g n := by
        rcases hx with ⟨h1, h2⟩ | ⟨h1, h2⟩
        · exact absurd (hmono x h1) h2
        · exact ⟨h2, h1⟩
      have hsub : (releasedAfter g n).toFinset ⊆ (releasedAfter g (n + 1)).toFinset := by
        intro y hy
        exact List.mem_toFinset.mpr (hmono y (List.mem_toFinset.mp hy))
      have hlt : (releasedAfter g n).toFinset.card < (releasedAfter g (n + 1)).toFinset.card := by
        refine Finset.card_lt_card ?_
        refine Finset.ssubset_iff_of_subset hsub |>.mpr ?_
        exact ⟨x, List.mem_toFinset.mpr hxin.1, fun hc => hxin.2 (List.mem_toFinset.mp hc)⟩
      omega

theorem released_fixpoint (g : TaskGraphM) (hnd : g.tasks.Nodup) :
    ∀ m x, x ∈ releasedAfter g m → x ∈ releasedSet g := by
  have hbound : ∀ n, (releasedAfter g n).toFinset.card ≤ g.tasks.length := by
    intro n
    have hsub : (releasedAfter g n).toFinset ⊆ g.tasks.toFinset := by
      intro y hy
      exact List.mem_toFinset.mpr
        (releasedAfter_subset_tasks g n y (List.mem_toFinset.mp hy))
    calc (releasedAfter g n).toFinset.card ≤ g.tasks.toFinset.card :=
          Finset.card_le_card hsub
      _ = g.tasks.length := by rw [List.toFinset_card_of_nodup hnd]
  have hstable : ∀ x, x ∈ releasedAfter g (g.tasks.length + 1) ↔
      x ∈ releasedAfter g (g.tasks.length + 1 + 1) := by
    rcases released_growth g (g.tasks.length + 1) with h | h
    · exact h
    · have := hbound (g.tasks.length + 1)
      omega
  intro m x hx
  unfold releasedSet
  rcases Nat.le_total m (g.tasks.length + 1) with hle | hge
  · exact releasedAfter_le_mono g hle x hx
  · exact (releasedAfter_stable g hstable m hge x).mp hx

/-- The released set is exactly the accessible part of the dependency
relation. -/
theorem mem_releasedSet_iff (g : TaskGraphM) (hnd : g.tasks.Nodup)
    (hclosed : ∀ t ∈ g.tasks, ∀ d ∈ g.depOn t, d ∈ g.tasks) (t : Str) :
    t ∈ releasedSet g ↔ t ∈ g.tasks ∧ Acc (depRel g) t := by
  constructor
  · intro h
    exact ⟨releasedAfter_subset_tasks g _ t h, releasedAfter_acc g _ t h⟩
  · rintro ⟨h1, h2⟩
    obtain ⟨n, hn⟩ := acc_mem_released g hclosed t h2 h1
    exact released_fixpoint g hnd n t hn

theorem irrefl_of_acc {α : Type} {q : α → α → Prop} {x : α}
    (h : Acc q x) : ¬ q x x := by
  induction h with
  | intro x _ ih => exact fun hq => ih x hq hq

theorem not_acc_of_cycle {g : TaskGraphM} {s : Str}
    (h : Relation.TransGen (depRel g) s s) : ¬ Acc (depRel g) s := by
  intro hacc
  exact irrefl_of_acc hacc.transGen h

theorem not_acc_mono {g : TaskGraphM} {s t : Str}
    (h : Relation.ReflTransGen (depRel g) s t) (hs : ¬ Acc (depRel g) s) :
    ¬ Acc (depRel g) t := by
  induction h with
  | refl => exact hs
  | tail hab hbc ih => exact fun hc => ih (hc.inv hbc)

theorem transGen_mem_tasks {g : TaskGraphM} {a b : Str}
    (h : Relation.TransGen (depRel g) a b) : b ∈ g.tasks := by
  induction h with
  | single hr => exact hr.1
  | tail _ hr _ => exact hr.1

theorem chain_reflTransGen {g : TaskGraphM} (f : Nat → Str)
    (hstep : ∀ n, depRel g (f (n + 1)) (f n)) :
    ∀ a b, a ≤ b → Relation.ReflTransGen (depRel g) (f b) (f a) := by
  intro a b hab
  induction b with
  | zero =>
    cases Nat.le_zero.mp hab
    exact Relation.ReflTransGen.refl
  | succ b ih =>
    rcases Nat.lt_or_ge a (b + 1) with hlt | hge
    · exact Relation.ReflTransGen.head (hstep b) (ih (Nat.lt_succ_iff.mp hlt))
    · cases Nat.le_antisymm hab hge
      exact Relation.ReflTransGen.refl

theorem not_acc_cycle_ancestor (g : TaskGraphM) (t : Str)
    (ht : ¬ Acc (depRel g) t) :
    ∃ s, Relation.TransGen (depRel g) s s ∧ Relation.ReflTransGen (depRel g) s t := by
  classical
  have step : ∀ x : {a : Str // ¬ Acc (depRel g) a},
      ∃ y : {a : Str // ¬ Acc (depRel g) a}, depRel g y.1 x.1 := by
    rintro ⟨x, hx⟩
    obtain ⟨y, hy1, hy2⟩ := RelEmbedding.exists_not_acc_lt_of_not_acc hx
    exact ⟨⟨y, hy1⟩, hy2⟩
  choose nxt hnxt using step
  set f : Nat → {a : Str // ¬ Acc (depRel g) a} :=
    fun n => nxt^[n] ⟨t, ht⟩ with hf
  set F : Nat → Str := fun n => (f n).1 with hF
  have hFstep : ∀ n, depRel g (F (n + 1)) (F n) := by
    intro n
    show depRel g (f (n + 1)).1 (f n).1
    rw [hf]
    simp only [Function.iterate_succ', Function.comp_apply]
    exact hnxt _
  have hF0 : F 0 = t := rfl
  have hmem : ∀ n, F n ∈ g.tasks := fun n => (hFstep n).1
  have hchain := chain_reflTransGen F hFstep
  -- pigeonhole over the first `tasks.length + 1` chain elements
  set N := g.tasks.length with hN
  have hcard : Fintype.card {x // x ∈ g.tasks.toFinset} < Fintype.card (Fin (N + 1)) := by
    rw [Fintype.card_fin, Fintype.card_coe]
    have := g.tasks.toFinset_card_le
    omega
  obtain ⟨i, j, hij, heq⟩ := Fintype.exists_ne_map_eq_of_card_lt
    (fun i : Fin (N + 1) => (⟨F i.1, List.mem_toFinset.mpr (hmem i.1)⟩ :
      {x // x ∈ g.tasks.toFinset})) hcard
  have heq' : F i.1 = F j.1 := congrArg (fun z : {x // x ∈ g.tasks.toFinset} => z.1) heq
  have main : ∀ a b : Nat, a < b → F a = F b →
      ∃ s, Relation.TransGen (depRel g) s s ∧
        Relation.ReflTransGen (depRel g) s t := by
    intro a b hab hfeq
    refine ⟨F a, ?_, ?_⟩
    · have htrans : Relation.TransGen (depRel g) (F b) (F a) :=
        Relation.TransGen.tail' (hchain (a + 1) b hab) (hFstep a)
      rw [← hfeq] at htrans
      exact htrans
    · have := hchain 0 a (Nat.zero_le _)
      rw [hF0] at this
      exact this
  have hne : i.1 ≠ j.1 := fun hc => hij (Fin.ext hc)
  rcases hne.lt_or_lt with hlt | hlt
  · exact main i.1 j.1 hlt heq'
  · exact main j.1 i.1 hlt heq'.symm

/-- Every name occurring in `names` is an infix of
`strings.Join(names, ",")`. -/
theorem infix_joinComma {names : List Str} {s : Str} (h : s ∈ names) :
    s <:+: joinComma names := by
  induction names with
  | nil => cases h
  | cons a rest ih =>
    cases rest with
    | nil =>
      rcases List.mem_singleton.mp h with rfl
      exact List.infix_refl _
    | cons b rest2 =>
      rcases List.mem_cons.mp h with rfl | hmem
      · exact ⟨[], ',' :: joinComma (b :: rest2), rfl⟩
      · obtain ⟨pre, post, hpp⟩ := ih hmem
        refine ⟨a ++ ',' :: pre, post, ?_⟩
        have hj : joinComma (a :: b :: rest2) = a ++ ',' :: joinComma (b :: rest2) := rfl
        rw [hj, ← hpp]
        simp

/-- A task is returned by `Prepare` as not-ready exactly when it is in the
graph and has a cycle among its reflexive-transitive dependency
ancestors. -/
theorem mem_prepareNotReady_iff (g : TaskGraphM) (hnd : g.tasks.Nodup)
    (hclosed : ∀ t ∈ g.tasks, ∀ d ∈ g.depOn t, d ∈ g.tasks) (t : Str) :
    t ∈ prepareNotReady g ↔
      t ∈ g.tasks ∧ ∃ s, Relation.TransGen (depRel g) s s ∧
        Relation.ReflTransGen (depRel g) s t := by
  unfold prepareNotReady
  rw [List.mem_filter]
  simp only [Bool.not_eq_true', decide_eq_false_iff_not]
  constructor
  · rintro ⟨h1, h2⟩
    refine ⟨h1, ?_⟩
    have hnacc : ¬ Acc (depRel g) t := fun hacc =>
      h2 ((mem_releasedSet_iff g hnd hclosed t).mpr ⟨h1, hacc⟩)
    exact not_acc_cycle_ancestor g t hnacc
  · rintro ⟨h1, s, hcyc, hanc⟩
    refine ⟨h1, fun hmem => ?_⟩
    have hacc := ((mem_releasedSet_iff g hnd hclosed t).mp hmem).2
    exact not_acc_mono hanc (not_acc_of_cycle hcyc) hacc

/-- `Plan` fails exactly when the dependency relation has a cycle among
the materialised tasks. -/
theorem planResult_error_iff (g : TaskGraphM) (hnd : g.tasks.Nodup)
    (hclosed : ∀ t ∈ g.tasks, ∀ d ∈ g.depOn t, d ∈ g.tasks) :
    (∃ e, planResult g = .error e) ↔
      ∃ s ∈ g.tasks, Relation.TransGen (depRel g) s s := by
  unfold planResult
  constructor
  · rintro ⟨e, he⟩
    split at he
    · exact absurd he (by simp)
    · rename_i hne
      obtain ⟨t, ht⟩ := List.exists_mem_of_ne_nil _ hne
      obtain ⟨_, s, hcyc, _⟩ := (mem_prepareNotReady_iff g hnd hclosed t).mp ht
      exact ⟨s, transGen_mem_tasks hcyc, hcyc⟩
  · rintro ⟨s, hs, hcyc⟩
    have hmem : s ∈ prepareNotReady g :=
      (mem_prepareNotReady_iff g hnd hclosed s).mpr
        ⟨hs, s, hcyc, Relation.ReflTransGen.refl⟩
    have hne : prepareNotReady g ≠ [] := fun hc => by rw [hc] at hmem; cases hmem
    rw [if_neg hne]
    exact ⟨_, rfl⟩

/-- C4: for every task graph (with unique task names, closed under
dependencies), `Plan` fails exactly when the dependency relation over the
materialised tasks contains a cycle; `Prepare` returns exactly the tasks
never released by the readiness pass — those in a cycle or with a
dependency ancestor in a cycle — and the returned error message contains
"cyclic dependencies" and the name of every such task. -/
theorem c4_plan_cycles (g : TaskGraphM) (hnd : g.tasks.Nodup)
    (hclosed : ∀ t ∈ g.tasks, ∀ d ∈ g.depOn t, d ∈ g.tasks) :
    ((∃ e, planResult g = .error e) ↔
      ∃ s ∈ g.tasks, Relation.TransGen (depRel g) s s) ∧
    (∀ t, t ∈ prepareNotReady g ↔
      t ∈ g.tasks ∧ ∃ s, Relation.TransGen (depRel g) s s ∧
        Relation.ReflTransGen (depRel g) s t) ∧
    (∀ e, planResult g = .error e →
      "cyclic dependencies".data <:+: e ∧ ∀ t ∈ prepareNotReady g, t <:+: e) := by
  refine ⟨planResult_error_iff g hnd hclosed,
    mem_prepareNotReady_iff g hnd hclosed, ?_⟩
  intro e he
  unfold planResult at he
  split at he
  · exact absurd he (by simp)
  · injection he with he'
    subst he'
    constructor
    · refine ⟨[], " in ".data ++ joinComma (prepareNotReady g), ?_⟩
      have hsplit : "cyclic dependencies in ".data =
          "cyclic dependencies".data ++ " in ".data := by decide
      unfold planErrMsg
      rw [hsplit]
      simp
    · intro t ht
      obtain ⟨pre, post, hpp⟩ := infix_joinComma ht
      refine ⟨"cyclic dependencies in ".data ++ pre, post, ?_⟩
      unfold planErrMsg
      rw [← hpp]
      simp

/-- Witness for C4 at the concrete cyclic graph `c4g` (tasks `a` and `b`
depending on each other). -/
theorem c4_plan_cycles_witness :
    c4g.tasks.Nodup ∧ (∀ t ∈ c4g.tasks, ∀ d ∈ c4g.depOn t, d ∈ c4g.tasks) ∧
    (((∃ e, planResult c4g = .error e) ↔
       ∃ s ∈ c4g.tasks, Relation.TransGen (depRel c4g) s s) ∧
     (∀ t, t ∈ prepareNotReady c4g ↔
       t ∈ c4g.tasks ∧ ∃ s, Relation.TransGen (depRel c4g) s s ∧
         Relation.ReflTransGen (depRel c4g) s t) ∧
     (∀ e, planResult c4g = .error e →
       "cyclic dependencies".data <:+: e ∧ ∀ t ∈ prepareNotReady c4g, t <:+: e)) :=
  ⟨by decide, by decide, c4_plan_cycles c4g (by decide) (by decide)⟩

/-! ### C6/C3: the dispatcher invariant -/

theorem mem_map_fst_iff {α β : Type} {l : List (α × β)} {a : α} :
    a ∈ l.map Prod.fst ↔ ∃ b, (a, b) ∈ l := by
  constructor
  · intro h
    obtain ⟨⟨x, y⟩, hp, he⟩ := List.mem_map.mp h
    cases he
    exact ⟨y, hp⟩
  · rintro ⟨b, hb⟩
    exact List.mem_map.mpr ⟨(a, b), hb, rfl⟩

theorem nodup_fst_mem_inj {α β : Type} {l : List (α × β)}
    (hnd : (l.map Prod.fst).Nodup) {a : α} {b b' : β}
    (h1 : (a, b) ∈ l) (h2 : (a, b') ∈ l) : b = b' := by
  induction l with
  | nil => cases h1
  | cons p rest ih =>
    simp only [List.map_cons, List.nodup_cons] at hnd
    rcases List.mem_cons.mp h1 with he1 | h1'
    · rcases List.mem_cons.mp h2 with he2 | h2'
      · rw [← he1] at he2
        injection he2 with hae hbe
        exact hbe.symm
      · exfalso
        apply hnd.1
        rw [← he1]
        exact mem_map_fst_iff.mpr ⟨b', h2'⟩
    · rcases List.mem_cons.mp h2 with he2 | h2'
      · exfalso
        apply hnd.1
        rw [← he2]
        exact mem_map_fst_iff.mpr ⟨b, h1'⟩
      · exact ih hnd.2 h1' h2'

theorem completeStep_failed (g : TaskGraphM) (s : ExecState) (r : Str)
    (e : Option GoErr) (he : errFailed e = true) :
    completeStep g s r e =
      { s with running := s.running.erase r
               completed := s.completed ++ [(r, e)] } := by
  unfold completeStep
  rw [if_pos he]

theorem completeStep_ok (g : TaskGraphM) (s : ExecState) (r : Str)
    (e : Option GoErr) (he : errFailed e = false) :
    completeStep g s r e =
      { ready := s.ready ++ newlyReadyAfter g s r
        running := s.running.erase r
        completed := s.completed ++ [(r, e)]
        depDone := ddAfter g s r } := by
  unfold completeStep
  rw [if_neg (by simp [he])]

theorem inv_init (g : TaskGraphM) (hnd : g.tasks.Nodup) : Inv g (initState g) := by
  refine ⟨hnd.filter _, List.nodup_nil, List.nodup_nil,
    fun u _ => List.not_mem_nil u,
    fun u _ hc => absurd hc (by simp [initState]),
    fun u hc => absurd hc (List.not_mem_nil u),
    ?_,
    fun u hc => absurd hc (List.not_mem_nil u),
    fun u hc => absurd hc (by simp [initState]),
    fun _ => List.nodup_nil,
    fun u d hd => absurd hd (List.not_mem_nil d),
    fun u d hd => absurd hd (List.not_mem_nil d),
    ?_,
    fun u hc => absurd hc (List.not_mem_nil u),
    fun p hp => absurd hp (List.not_mem_nil p)⟩
  · intro u hu
    have hu' : u ∈ g.tasks.filter fun t => (g.depOn t).isEmpty := hu
    exact (List.mem_filter.mp hu').1
  · intro u hu d hd
    have hu' : u ∈ g.tasks.filter fun t => (g.depOn t).isEmpty := hu
    have h2 := (List.mem_filter.mp hu').2
    rw [List.isEmpty_iff] at h2
    rw [h2] at hd
    cases hd

theorem inv_dispatch (g : TaskGraphM) (s : ExecState) (u : Str) (rest : List Str)
    (h : s.ready = u :: rest) (hi : Inv g s) :
    Inv g { s with ready := rest, running := s.running ++ [u] } := by
  have humem : u ∈ s.ready := by rw [h]; exact List.mem_cons_self u rest
  have hrd := hi.rd_nodup
  rw [h] at hrd
  have hunotrest : u ∉ rest := (List.nodup_cons.mp hrd).1
  have hrestnd : rest.Nodup := (List.nodup_cons.mp hrd).2
  have hrest : ∀ v, v ∈ rest → v ∈ s.ready := by
    intro v hv; rw [h]; exact List.mem_cons_of_mem _ hv
  refine ⟨hrestnd, ?_, hi.comp_nodup, ?_, ?_, ?_, ?_, ?_, hi.comp_tasks,
    hi.dd_nodup, hi.dd_sub, hi.dd_done, ?_, ?_, hi.comp_deps⟩
  · rw [List.nodup_append]
    refine ⟨hi.run_nodup, List.nodup_singleton u, ?_⟩
    intro v hv hvu
    rw [List.mem_singleton] at hvu
    subst hvu
    exact hi.rd_run v humem hv
  · intro v hv hmem
    rcases List.mem_append.mp hmem with h1 | h1
    · exact hi.rd_run v (hrest v hv) h1
    · rw [List.mem_singleton] at h1
      subst h1
      exact hunotrest hv
  · intro v hv
    exact hi.rd_comp v (hrest v hv)
  · intro v hv hc
    rcases List.mem_append.mp hv with h1 | h1
    · exact hi.run_comp v h1 hc
    · rw [List.mem_singleton] at h1
      subst h1
      exact hi.rd_comp v humem hc
  · intro v hv
    exact hi.rd_tasks v (hrest v hv)
  · intro v hv
    rcases List.mem_append.mp hv with h1 | h1
    · exact hi.run_tasks v h1
    · rw [List.mem_singleton] at h1
      subst h1
      exact hi.rd_tasks v humem
  · intro v hv
    exact hi.rd_deps v (hrest v hv)
  · intro v hv
    rcases List.mem_append.mp hv with h1 | h1
    · exact hi.run_deps v h1
    · rw [List.mem_singleton] at h1
      subst h1
      exact hi.rd_deps v humem

theorem inv_finish (g : TaskGraphM) (hnd : g.tasks.Nodup) (s : ExecState)
    (r : Str) (e : Option GoErr) (hr : r ∈ s.running) (hi : Inv g s) :
    Inv g (completeStep g s r e) := by
  have hrnotc : r ∉ s.completed.map Prod.fst := hi.run_comp r hr
  have hcompnd : ((s.completed ++ [(r, e)]).map Prod.fst).Nodup := by
    rw [List.map_append, List.nodup_append]
    refine ⟨hi.comp_nodup, by simp, ?_⟩
    intro v hv hvu
    simp at hvu
    subst hvu
    exact hrnotc hv
  have hmono : ∀ d e', (d, e') ∈ s.completed → (d, e') ∈ s.completed ++ [(r, e)] :=
    fun d e' hmem => List.mem_append_left _ hmem
  by_cases hf : errFailed e = true
  · rw [completeStep_failed g s r e hf]
    refine ⟨hi.rd_nodup, (List.erase_sublist r s.running).nodup hi.run_nodup,
      hcompnd, ?_, ?_, ?_, hi.rd_tasks, ?_, ?_, hi.dd_nodup, hi.dd_sub,
      ?_, ?_, ?_, ?_⟩
    · intro v hv hc
      exact hi.rd_run v hv (List.mem_of_mem_erase hc)
    · intro v hv hc
      rw [List.map_append] at hc
      rcases List.mem_append.mp hc with hc1 | hc1
      · exact hi.rd_comp v hv hc1
      · simp at hc1
        subst hc1
        exact hi.rd_run v hv hr
    · intro v hv hc
      obtain ⟨hne, hvr⟩ := (List.Nodup.mem_erase_iff hi.run_nodup).mp hv
      rw [List.map_append] at hc
      rcases List.mem_append.mp hc with hc1 | hc1
      · exact hi.run_comp v hvr hc1
      · simp at hc1
        exact hne hc1
    · intro v hv
      exact hi.run_tasks v (List.mem_of_mem_erase hv)
    · intro v hv
      rw [List.map_append] at hv
      rcases List.mem_append.mp hv with h1 | h1
      · exact hi.comp_tasks v h1
      · simp at h1
        subst h1
        exact hi.run_tasks v hr
    · intro u d hd
      obtain ⟨e', h1', h2'⟩ := hi.dd_done u d hd
      exact ⟨e', hmono d e' h1', h2'⟩
    · intro v hv d hd
      obtain ⟨e', h1', h2'⟩ := hi.rd_deps v hv d hd
      exact ⟨e', hmono d e' h1', h2'⟩
    · intro v hv d hd
      obtain ⟨e', h1', h2'⟩ := hi.run_deps v (List.mem_of_mem_erase hv) d hd
      exact ⟨e', hmono d e' h1', h2'⟩
    · intro p hp d hd
      rcases List.mem_append.mp hp with h1 | h1
      · obtain ⟨e', h1', h2'⟩ := hi.comp_deps p h1 d hd
        exact ⟨e', hmono d e' h1', h2'⟩
      · simp at h1
        subst h1
        obtain ⟨e', h1', h2'⟩ := hi.run_deps r hr d hd
        exact ⟨e', hmono d e' h1', h2'⟩
  · have hfe : errFailed e = false := Bool.eq_false_iff.mpr hf
    have hrnotdd : ∀ u, r ∉ s.depDone u := by
      intro u hmem
      obtain ⟨e', he', _⟩ := hi.dd_done u r hmem
      exact hrnotc (mem_map_fst_iff.mpr ⟨e', he'⟩)
    have hnewmem : ∀ u, u ∈ newlyReadyAfter g s r →
        u ∈ g.tasks ∧ r ∈ g.depOn u ∧
          (g.depOn u).length ≤ (ddAfter g s r u).length := by
      intro u hu
      unfold newlyReadyAfter at hu
      rw [List.mem_filter] at hu
      have h2 := hu.2
      simp only [Bool.and_eq_true, decide_eq_true_eq] at h2
      exact ⟨hu.1, h2.1, h2.2⟩
    have hddAfter : ∀ u, r ∈ g.depOn u →
        ddAfter g s r u = s.depDone u ++ [r] := by
      intro u hdep
      unfold ddAfter
      rw [if_pos ⟨hdep, hrnotdd u⟩]
    have hnewdeps : ∀ u, u ∈ newlyReadyAfter g s r → ∀ d, d ∈ g.depOn u →
        ∃ e', (d, e') ∈ s.completed ++ [(r, e)] ∧ errFailed e' = false := by
      intro u hu d hd
      obtain ⟨hut, hrd, hlen⟩ := hnewmem u hu
      rw [hddAfter u hrd] at hlen
      have hddnd : (s.depDone u ++ [r]).Nodup := by
        rw [List.nodup_append]
        refine ⟨hi.dd_nodup u, by simp, ?_⟩
        intro v hv hvr
        simp at hvr
        subst hvr
        exact hrnotdd u hv
      have hddsub : ∀ v, v ∈ s.depDone u ++ [r] → v ∈ g.depOn u := by
        intro v hv
        rcases List.mem_append.mp hv with h1 | h1
        · exact hi.dd_sub u v h1
        · simp at h1
          subst h1
          exact hrd
      have hdmem : d ∈ s.depDone u ++ [r] := by
        have hsub : (s.depDone u ++ [r]).toFinset ⊆ (g.depOn u).toFinset := by
          intro v hv
          exact List.mem_toFinset.mpr (hddsub v (List.mem_toFinset.mp hv))
        have hcard : (g.depOn u).toFinset.card ≤
            (s.depDone u ++ [r]).toFinset.card := by
          calc (g.depOn u).toFinset.card
              ≤ (g.depOn u).length := (g.depOn u).toFinset_card_le
            _ ≤ (s.depDone u ++ [r]).length := hlen
            _ = (s.depDone u ++ [r]).toFinset.card :=
                (List.toFinset_card_of_nodup hddnd).symm
        have hfeq := Finset.eq_of_subset_of_card_le hsub hcard
        have hdf : d ∈ (g.depOn u).toFinset := List.mem_toFinset.mpr hd
        rw [← hfeq] at hdf
        exact List.mem_toFinset.mp hdf
      rcases List.mem_append.mp hdmem with h1 | h1
      · obtain ⟨e', h1', h2'⟩ := hi.dd_done u d h1
        exact ⟨e', hmono d e' h1', h2'⟩
      · simp at h1
        subst h1
        exact ⟨e, List.mem_append_right _ (by simp), hfe⟩
    have hnewfresh : ∀ u, u ∈ newlyReadyAfter g s r →
        u ∉ s.ready ∧ u ∉ s.running ∧ u ∉ s.completed.map Prod.fst := by
      intro u hu
      obtain ⟨hut, hrd, _⟩ := hnewmem u hu
      refine ⟨fun hc => ?_, fun hc => ?_, fun hc => ?_⟩
      · obtain ⟨e', he', _⟩ := hi.rd_deps u hc r hrd
        exact hrnotc (mem_map_fst_iff.mpr ⟨e', he'⟩)
      · obtain ⟨e', he', _⟩ := hi.run_deps u hc r hrd
        exact hrnotc (mem_map_fst_iff.mpr ⟨e', he'⟩)
      · obtain ⟨e2, he2⟩ := mem_map_fst_iff.mp hc
        obtain ⟨e', he', _⟩ := hi.comp_deps (u, e2) he2 r hrd
        exact hrnotc (mem_map_fst_iff.mpr ⟨e', he'⟩)
    have hnewnd : (newlyReadyAfter g s r).Nodup := hnd.filter _
    rw [completeStep_ok g s r e hfe]
    refine ⟨?_, (List.erase_sublist r s.running).nodup hi.run_nodup, hcompnd,
      ?_, ?_, ?_, ?_, ?_, ?_, ?_, ?_, ?_, ?_, ?_, ?_⟩
    · rw [List.nodup_append]
      refine ⟨hi.rd_nodup, hnewnd, ?_⟩
      intro v hv hv2
      exact (hnewfresh v hv2).1 hv
    · intro v hv hc
      have hvr : v ∈ s.running := List.mem_of_mem_erase hc
      rcases List.mem_append.mp hv with h1 | h1
      · exact hi.rd_run v h1 hvr
      · exact (hnewfresh v h1).2.1 hvr
    · intro v hv hc
      rw [List.map_append] at hc
      rcases List.mem_append.mp hc with hc1 | hc1
      · rcases List.mem_append.mp hv with h1 | h1
        · exact hi.rd_comp v h1 hc1
        · exact (hnewfresh v h1).2.2 hc1
      · simp at hc1
        subst hc1
        rcases List.mem_append.mp hv with h1 | h1
        · exact hi.rd_run v h1 hr
        · exact (hnewfresh v h1).2.1 hr
    · intro v hv hc
      obtain ⟨hne, hvr⟩ := (List.Nodup.mem_erase_iff hi.run_nodup).mp hv
      rw [List.map_append] at hc
      rcases List.mem_append.mp hc with hc1 | hc1
      · exact hi.run_comp v hvr hc1
      · simp at hc1
        exact hne hc1
    · intro v hv
      rcases List.mem_append.mp hv with h1 | h1
      · exact hi.rd_tasks v h1
      · exact (hnewmem v h1).1
    · intro v hv
      exact hi.run_tasks v (List.mem_of_mem_erase hv)
    · intro v hv
      rw [List.map_append] at hv
      rcases List.mem_append.mp hv with h1 | h1
      · exact hi.comp_tasks v h1
      · simp at h1
        subst h1
        exact hi.run_tasks v hr
    · intro u
      show (ddAfter g s r u).Nodup
      unfold ddAfter
      split
      · rename_i hcond
        rw [List.nodup_append]
        refine ⟨hi.dd_nodup u, by simp, ?_⟩
        intro v hv hvr
        simp at hvr
        subst hvr
        exact hcond.2 hv
      · exact hi.dd_nodup u
    · intro u d hd
      have hd' : d ∈ ddAfter g s r u := hd
      unfold ddAfter at hd'
      split at hd'
      · rename_i hcond
        rcases List.mem_append.mp hd' with h1 | h1
        · exact hi.dd_sub u d h1
        · simp at h1
          subst h1
          exact hcond.1
      · exact hi.dd_sub u d hd'
    · intro u d hd
      have hd' : d ∈ ddAfter g s r u := hd
      unfold ddAfter at hd'
      split at hd'
      · rcases List.mem_append.mp hd' with h1 | h1
        · obtain ⟨e', h1', h2'⟩ := hi.dd_done u d h1
          exact ⟨e', hmono d e' h1', h2'⟩
        · simp at h1
          subst h1
          exact ⟨e, List.mem_append_right _ (by simp), hfe⟩
      · obtain ⟨e', h1', h2'⟩ := hi.dd_done u d hd'
        exact ⟨e', hmono d e' h1', h2'⟩
    · intro v hv d hd
      rcases List.mem_append.mp hv with h1 | h1
      · obtain ⟨e', h1', h2'⟩ := hi.rd_deps v h1 d hd
        exact ⟨e', hmono d e' h1', h2'⟩
      · exact hnewdeps v h1 d hd
    · intro v hv d hd
      obtain ⟨e', h1', h2'⟩ := hi.run_deps v (List.mem_of_mem_erase hv) d hd
      exact ⟨e', hmono d e' h1', h2'⟩
    · intro p hp d hd
      rcases List.mem_append.mp hp with h1 | h1
      · obtain ⟨e', h1', h2'⟩ := hi.comp_deps p h1 d hd
        exact ⟨e', hmono d e' h1', h2'⟩
      · simp at h1
        subst h1
        obtain ⟨e', h1', h2'⟩ := hi.run_deps r hr d hd
        exact ⟨e', hmono d e' h1', h2'⟩

theorem inv_step (g : TaskGraphM) (hnd : g.tasks.Nodup) {s s' : ExecState}
    (hstep : DStep g s s') (hi : Inv g s) : Inv g s' := by
  cases hstep with
  | dispatch u rest h => exact inv_dispatch g s u rest h hi
  | finish r e hr => exact inv_finish g hnd s r e hr hi

theorem inv_reach (g : TaskGraphM) (hnd : g.tasks.Nodup) {s : ExecState}
    (hreach : Relation.ReflTransGen (DStep g) (initState g) s) : Inv g s := by
  induction hreach with
  | refl => exact inv_init g hnd
  | tail _ hstep ih => exact inv_step g hnd hstep ih

/-- C6: in every dispatcher execution (over a graph with unique task names)
a task one of whose dependencies completed with a failure never enters the
ready list and is never handed to a worker; equivalently, a task is running
only after all of its dependencies completed without failure. -/
theorem c6_failed_dep_blocks (g : TaskGraphM) (hnd : g.tasks.Nodup)
    (s : ExecState) (hreach : Relation.ReflTransGen (DStep g) (initState g) s) :
    (∀ u d e, d ∈ g.depOn u → (d, e) ∈ s.completed → errFailed e = true →
      u ∉ s.ready ∧ u ∉ s.running) ∧
    (∀ u, u ∈ s.running → ∀ d, d ∈ g.depOn u →
      ∃ e, (d, e) ∈ s.completed ∧ errFailed e = false) := by
  have hi := inv_reach g hnd hreach
  refine ⟨?_, hi.run_deps⟩
  intro u d e hd hde hef
  constructor
  · intro hc
    obtain ⟨e', h1', h2'⟩ := hi.rd_deps u hc d hd
    have heq : e = e' := nodup_fst_mem_inj hi.comp_nodup hde h1'
    rw [← heq] at h2'
    simp [hef] at h2'
  · intro hc
    obtain ⟨e', h1', h2'⟩ := hi.run_deps u hc d hd
    have heq : e = e' := nodup_fst_mem_inj hi.comp_nodup hde h1'
    rw [← heq] at h2'
    simp [hef] at h2'

/-- Witness for C6: the two-task graph where `b` depends on `a`, after the
run dispatches `a` and `a` finishes with a failure. -/
theorem c6_failed_dep_blocks_witness :
    c6g.tasks.Nodup ∧
    ((∀ u d e, d ∈ c6g.depOn u → (d, e) ∈ c6s2.completed → errFailed e = true →
        u ∉ c6s2.ready ∧ u ∉ c6s2.running) ∧
     (∀ u, u ∈ c6s2.running → ∀ d, d ∈ c6g.depOn u →
        ∃ e, (d, e) ∈ c6s2.completed ∧ errFailed e = false)) :=
  ⟨by decide, c6_failed_dep_blocks c6g (by decide) c6s2
    (Relation.ReflTransGen.tail
      (Relation.ReflTransGen.single
        (DStep.dispatch (initState c6g) ['a'] [] (by decide)))
      (DStep.finish c6s1 ['a'] (some (.failure "x")) (by decide)))⟩

/-- The counterexample for C3: a run on the two-task graph where `b`
depends on `a`; `a` is dispatched and fails, the ready list is drained and
nothing runs — yet `run` reports `ErrIncomplete`, not a distinct
some-task-failed error. -/
theorem c3_counterexample :
    Relation.ReflTransGen (DStep c3g) (initState c3g) c3s2 ∧
    c3s2.ready = [] ∧ c3s2.running = [] ∧
    (∃ p ∈ c3s2.completed, errFailed p.2 = true) ∧
    runResult c3g c3s2 = some RunError.incomplete ∧
    runResult c3g c3s2 ≠ some RunError.someTaskFailed :=
  ⟨Relation.ReflTransGen.tail
      (Relation.ReflTransGen.single
        (DStep.dispatch (initState c3g) ['a'] [] (by decide)))
      (DStep.finish c3s1 ['a'] (some (.failure "boom")) (by decide)),
    by decide, by decide,
    ⟨(['a'], some (.failure "boom")), by decide, by decide⟩,
    by decide, by decide⟩

/-- C3 (amended): in every dispatcher run in which some completed task
failed and that task has a dependent in the graph, `run` reports
`ErrIncomplete`; no distinct some-task-failed error is produced —
`ErrSomeTaskFailed` is referenced by the build command but never defined
or returned by the engine. -/
theorem c3_run_returns_incomplete (g : TaskGraphM) (hnd : g.tasks.Nodup)
    (s : ExecState) (hreach : Relation.ReflTransGen (DStep g) (initState g) s)
    (d : Str) (e : Option GoErr) (hde : (d, e) ∈ s.completed)
    (hef : errFailed e = true)
    (u : Str) (hu : u ∈ g.tasks) (hd : d ∈ g.depOn u) :
    runResult g s = some RunError.incomplete ∧
      runResult g s ≠ some RunError.someTaskFailed := by
  have hi := inv_reach g hnd hreach
  have hunotc : u ∉ s.completed.map Prod.fst := by
    intro hc
    obtain ⟨e2, he2⟩ := mem_map_fst_iff.mp hc
    obtain ⟨e', h1', h2'⟩ := hi.comp_deps (u, e2) he2 d hd
    have heq : e = e' := nodup_fst_mem_inj hi.comp_nodup hde h1'
    rw [← heq] at h2'
    simp [hef] at h2'
  have hlen : s.completed.length < g.tasks.length := by
    have hmapsub : (s.completed.map Prod.fst).toFinset ⊆ g.tasks.toFinset := by
      intro v hv
      exact List.mem_toFinset.mpr (hi.comp_tasks v (List.mem_toFinset.mp hv))
    have hss : (s.completed.map Prod.fst).toFinset ⊂ g.tasks.toFinset := by
      rw [Finset.ssubset_def]
      refine ⟨hmapsub, fun hsub2 => ?_⟩
      exact hunotc (List.mem_toFinset.mp (hsub2 (List.mem_toFinset.mpr hu)))
    calc s.completed.length
        = (s.completed.map Prod.fst).length := (List.length_map _ _).symm
      _ = (s.completed.map Prod.fst).toFinset.card :=
          (List.toFinset_card_of_nodup hi.comp_nodup).symm
      _ < g.tasks.toFinset.card := Finset.card_lt_card hss
      _ = g.tasks.length := List.toFinset_card_of_nodup hnd
  unfold runResult
  rw [if_pos hlen]
  exact ⟨rfl, by decide⟩

/-- Witness for C3 at the two-task graph where `b` depends on the failed
task `a`. -/
theorem c3_run_returns_incomplete_witness :
    c3g.tasks.Nodup ∧ (['a'], some (GoErr.failure "boom")) ∈ c3s2.completed ∧
    errFailed (some (GoErr.failure "boom")) = true ∧ ['b'] ∈ c3g.tasks ∧
    ['a'] ∈ c3g.depOn ['b'] ∧
    (runResult c3g c3s2 = some RunError.incomplete ∧
      runResult c3g c3s2 ≠ some RunError.someTaskFailed) :=
  ⟨by decide, by decide, by decide, by decide, by decide,
    c3_run_returns_incomplete c3g (by decide) c3s2
      (Relation.ReflTransGen.tail
        (Relation.ReflTransGen.single
          (DStep.dispatch (initState c3g) ['a'] [] (by decide)))
        (DStep.finish c3s1 ['a'] (some (.failure "boom")) (by decide)))
      ['a'] (some (.failure "boom")) (by decide) (by decide)
      ['b'] (by decide) (by decide)⟩

/-! ### C8/C10: the external-tool protocol -/

theorem crVerify_fields (d : DiskL) (st : ToolState) :
    (crVerify d st).2.current = st.current ∧
    (crVerify d st).2.records = st.records ∧
    (crVerify d st).2.stateFile = st.stateFile ∧
    (crVerify d st).2.writes = st.writes := by
  unfold crVerify
  rcases hsv : st.saved with _ | sv
  · rcases hsf : st.stateFile with _ | sf <;> simp [hsv, hsf]
  · simp [hsv]

theorem vLineStep_spec (x : XCtx) (d : DiskL) (st : ToolState) :
    (vLineStep x d st).writes =
      st.writes ++ [if x.skippable && (crVerify d st).1 then "1" else "0"] ∧
    (vLineStep x d st).current = st.current ∧
    (vLineStep x d st).records = st.records ∧
    (vLineStep x d st).stateFile = st.stateFile := by
  obtain ⟨h1, h2, h3, h4⟩ := crVerify_fields d st
  by_cases hs : x.skippable = true
  · simp only [vLineStep, hs, if_true, Bool.true_and]
    exact ⟨by rw [h4], h1, h2, h3⟩
  · have hs2 : x.skippable = false := Bool.eq_false_iff.mpr hs
    simp [vLineStep, hs2]

theorem controlLoop_cons (x : XCtx) (d : DiskL) (st : ToolState)
    (line : String) (rest : List String) :
    controlLoop x d st (line :: rest) =
      (match processLine x d st line with
       | .next st2 => controlLoop x d st2 rest
       | .fail m => .fail m
       | .skip st2 => .skipped st2) := rfl

theorem processLine_v (x : XCtx) (d : DiskL) (st : ToolState) (val : List Char) :
    processLine x d st (String.mk ('V' :: val)) = .next (vLineStep x d st) := rfl

/-- C8: a line starting with `V` makes the engine write `"1"` to the
child's stdin exactly when the skippable flag is set and the cache
verifies, and `"0"` otherwise (leaving the current cache, the records and
the state file untouched); a line starting with `X` ends the control loop
with the skip sentinel, after which the executor publishes the previously
saved `OutputFiles` when a saved state has been loaded and dereferences a
nil pointer otherwise; a normal exit without `X` replays the recorded
declarations onto a fresh cache, persists it exactly when the replay
succeeds, and publishes that cache's outputs. -/
theorem c8_protocol (x : XCtx) (d : DiskL) :
    (∀ st val rest, ∃ st2,
      controlLoop x d st (String.mk ('V' :: val) :: rest) =
        controlLoop x d st2 rest ∧
      st2.writes = st.writes ++
        [if x.skippable && (crVerify d st).1 then "1" else "0"] ∧
      st2.current = st.current ∧ st2.records = st.records ∧
      st2.stateFile = st.stateFile) ∧
    (∀ stateFile args envs lines execErr st,
      controlLoop x d (initToolState args envs stateFile) lines =
        ControlResult.skipped st →
      executeExtTool x d stateFile args envs lines execErr =
        (match st.saved with
         | some sv => ExecOutcome.skippedPublished sv.TaskOutputs
         | none => ExecOutcome.nilDeref)) ∧
    (∀ stateFile args envs lines st,
      controlLoop x d (initToolState args envs stateFile) lines =
        ControlResult.normal st →
      executeExtTool x d stateFile args envs lines none =
        ExecOutcome.done (replayLoop x d {} st.records).1.TaskOutputs
          (replayLoop x d {} st.records).1
          (replayLoop x d {} st.records).2) := by
  refine ⟨?_, ?_, ?_⟩
  · intro st val rest
    obtain ⟨h1, h2, h3, h4⟩ := vLineStep_spec x d st
    refine ⟨vLineStep x d st, ?_, h1, h2, h3, h4⟩
    rw [controlLoop_cons, processLine_v]
  · intro stateFile args envs lines execErr st h
    unfold executeExtTool
    rw [h]
  · intro stateFile args envs lines st h
    unfold executeExtTool
    rw [h]

/-- Witness for C8 at concrete runs: a `V` line, an `X` line with no saved
state, and a normal run with a single `P` line. -/
theorem c8_protocol_witness :
    (∃ st2,
      controlLoop c8x [] (initToolState ["a"] ["e"] none)
          (String.mk ['V'] :: []) = controlLoop c8x [] st2 [] ∧
      st2.writes = (initToolState ["a"] ["e"] none).writes ++
        [if c8x.skippable && (crVerify [] (initToolState ["a"] ["e"] none)).1
         then "1" else "0"] ∧
      st2.current = (initToolState ["a"] ["e"] none).current ∧
      st2.records = (initToolState ["a"] ["e"] none).records ∧
      st2.stateFile = (initToolState ["a"] ["e"] none).stateFile) ∧
    (executeExtTool c8x [] none ["a"] ["e"] ["X"] none =
      (match (initToolState ["a"] ["e"] none).saved with
       | some sv => ExecOutcome.skippedPublished sv.TaskOutputs
       | none => ExecOutcome.nilDeref)) ∧
    (executeExtTool c8x [] none ["a"] ["e"] ["Pz"] none =
      ExecOutcome.done
        (replayLoop c8x [] {}
          (crAddOpaque (initToolState ["a"] ["e"] none) ["z"]).records).1.TaskOutputs
        (replayLoop c8x [] {}
          (crAddOpaque (initToolState ["a"] ["e"] none) ["z"]).records).1
        (replayLoop c8x [] {}
          (crAddOpaque (initToolState ["a"] ["e"] none) ["z"]).records).2) :=
  ⟨(c8_protocol c8x []).1 (initToolState ["a"] ["e"] none) [] [],
   (c8_protocol c8x []).2.1 none ["a"] ["e"] ["X"] none
     (initToolState ["a"] ["e"] none) (by decide),
   (c8_protocol c8x []).2.2 none ["a"] ["e"] ["Pz"]
     (crAddOpaque (initToolState ["a"] ["e"] none) ["z"]) (by decide)⟩

/-- The counterexample to C8's `X` clause: the child's first line is `X`,
no saved state was ever loaded, and the executor dereferences
`*cr.SavedTaskOutputs()` — a nil pointer — instead of publishing saved
outputs. -/
theorem c8_counterexample :
    executeExtTool c8x [] none ["a"] ["e"] ["X"] none = ExecOutcome.nilDeref ∧
    ∀ outs, ExecOutcome.nilDeref ≠ ExecOutcome.skippedPublished outs :=
  ⟨by decide, fun outs h => ExecOutcome.noConfusion h⟩

theorem foldl_addInputEntry_opaque (l : List (String × FileEntry))
    (c : FileCacheContent) :
    (List.foldl (fun acc p => addInputEntry acc p.1 p.2) c l).Opaque =
      c.Opaque := by
  induction l generalizing c with
  | nil => rfl
  | cons p rest ih =>
    rw [List.foldl_cons, ih]
    rfl

theorem addInput_opaque {x : XCtx} {d : DiskL} {c c2 : FileCacheContent}
    {rel : String} {rcv : Bool} (h : addInput x d c rel rcv = .ok c2) :
    c2.Opaque = c.Opaque := by
  simp only [addInput] at h
  split at h
  · split at h
    · cases h
      exact foldl_addInputEntry_opaque _ c
    · cases h
  · split at h
    · cases h
      rfl
    · cases h

theorem addSource_opaque {x : XCtx} {d : DiskL} {c c2 : FileCacheContent}
    {rel : String} {rcv : Bool} (h : addSource x d c rel rcv = .ok c2) :
    c2.Opaque = c.Opaque := by
  unfold addSource at h
  split at h
  · exact addInput_opaque h
  · exact addInput_opaque h

theorem addOutput_opaque (x : XCtx) (c : FileCacheContent) (key rel : String) :
    (addOutput x c key rel).Opaque = c.Opaque := by
  simp only [addOutput]
  split <;> rfl

theorem addGenerated_opaque (x : XCtx) (c : FileCacheContent) (rel : String) :
    (addGenerated x c rel).Opaque = c.Opaque := rfl

theorem crAddSource_opaque {x : XCtx} {d : DiskL} {st st3 : ToolState}
    {rel : String} {rcv : Bool} (h : crAddSource x d st rel rcv = .ok st3) :
    st3.current.Opaque = st.current.Opaque := by
  unfold crAddSource at h
  split at h
  · cases h
  · rename_i c heq
    cases h
    exact addSource_opaque heq

theorem crAddInput_opaque {x : XCtx} {d : DiskL} {st st3 : ToolState}
    {rel : String} {rcv : Bool} (h : crAddInput x d st rel rcv = .ok st3) :
    st3.current.Opaque = st.current.Opaque := by
  unfold crAddInput at h
  split at h
  · cases h
  · rename_i c heq
    cases h
    exact addInput_opaque heq

theorem processLine_opaque (x : XCtx) (d : DiskL) (st : ToolState)
    (line : String) (st2 : ToolState)
    (h : processLine x d st line = .next st2) :
    ∃ t, st2.current.Opaque = st.current.Opaque ++ t := by
  obtain ⟨data⟩ := line
  rcases data with _ | ⟨c, valChars⟩
  · cases h
    exact ⟨[], by simp⟩
  · simp only [processLine] at h
    by_cases hS : c = 'S'
    · rw [if_pos hS] at h
      split at h
      · exact LineResult.noConfusion h
      · rename_i st3 heq
        cases h
        refine ⟨[], ?_⟩
        rw [List.append_nil]
        by_cases hsl : hasSuffixSlash (String.mk valChars) = true
        · rw [if_pos hsl] at heq
          exact crAddSource_opaque heq
        · rw [if_neg hsl] at heq
          exact crAddSource_opaque heq
    · rw [if_neg hS] at h
      by_cases hI : c = 'I'
      · rw [if_pos hI] at h
        split at h
        · exact LineResult.noConfusion h
        · rename_i st3 heq
          cases h
          refine ⟨[], ?_⟩
          rw [List.append_nil]
          by_cases hsl : hasSuffixSlash (String.mk valChars) = true
          · rw [if_pos hsl] at heq
            exact crAddInput_opaque heq
          · rw [if_neg hsl] at heq
            exact crAddInput_opaque heq
      · rw [if_neg hI] at h
        by_cases hO : c = 'O'
        · rw [if_pos hO] at h
          cases h
          refine ⟨[], ?_⟩
          rw [List.append_nil]
          cases hsp : splitN2Colon valChars with
          | some kp => exact addOutput_opaque x st.current _ _
          | none => exact addOutput_opaque x st.current _ _
        · rw [if_neg hO] at h
          by_cases hG : c = 'G'
          · rw [if_pos hG] at h
            cases h
            refine ⟨[], ?_⟩
            rw [List.append_nil]
            exact addGenerated_opaque x st.current _
          · rw [if_neg hG] at h
            by_cases hP : c = 'P'
            · rw [if_pos hP] at h
              cases h
              exact ⟨[String.mk valChars], rfl⟩
            · rw [if_neg hP] at h
              by_cases hV : c = 'V'
              · rw [if_pos hV] at h
                cases h
                refine ⟨[], ?_⟩
                rw [List.append_nil, (vLineStep_spec x d st).2.1]
              · rw [if_neg hV] at h
                by_cases hC : c = 'C'
                · rw [if_pos hC] at h
                  cases h
                  exact ⟨[], by simp⟩
                · rw [if_neg hC] at h
                  by_cases hX : c = 'X'
                  · rw [if_pos hX] at h
                    exact LineResult.noConfusion h
                  · rw [if_neg hX] at h
                    cases h
                    exact ⟨[], by simp⟩

theorem controlLoop_opaque (x : XCtx) (d : DiskL) :
    ∀ lines st st2, controlLoop x d st lines = ControlResult.normal st2 →
      ∃ t, st2.current.Opaque = st.current.Opaque ++ t := by
  intro lines
  induction lines with
  | nil =>
    intro st st2 h
    cases h
    exact ⟨[], by simp⟩
  | cons line rest ih =>
    intro st st2 h
    rw [controlLoop_cons] at h
    cases hpl : processLine x d st line with
    | next st3 =>
      rw [hpl] at h
      obtain ⟨t1, ht1⟩ := processLine_opaque x d st line st3 hpl
      obtain ⟨t2, ht2⟩ := ih st3 st2 h
      exact ⟨t1 ++ t2, by rw [ht2, ht1, List.append_assoc]⟩
    | fail m =>
      rw [hpl] at h
      exact ControlResult.noConfusion h
    | skip st3 =>
      rw [hpl] at h
      exact ControlResult.noConfusion h

theorem verify_opaque_ne_false (saved current : FileCacheContent)
    (disk : Disk) (hne : saved.Opaque ≠ current.Opaque) :
    (verify (some saved) current disk).1 = false := by
  rw [Bool.eq_false_iff]
  intro htrue
  obtain ⟨_, _, _, _, hop, _, _⟩ :=
    (verify_some_true_iff saved current disk).mp htrue
  by_cases hlen : saved.Opaque.length = current.Opaque.length
  · rw [if_neg (not_not_intro hlen)] at hop
    exact hne ((compareOpaqueLoop_none_iff hlen).mp hop)
  · rw [if_pos hlen] at hop
    cases hop

/-- C10 (amended): before any stdout line is processed the engine appends
the command arguments and then the environment entries as opaque strings
(ahead of any `P` opaques, which are only ever appended later); cache
verification fails whenever the combined opaque sequence differs from the
saved one — but only the concatenation is compared, so a change to the
argument list alone can be masked by a compensating change to the
environment. -/
theorem c10_opaque_order (x : XCtx) (d : DiskL) :
    (∀ args envs stateFile,
      (initToolState args envs stateFile).current.Opaque = args ++ envs ∧
      (initToolState args envs stateFile).records =
        [CacheOp.addOpaque args, CacheOp.addOpaque envs]) ∧
    (∀ lines st st2, controlLoop x d st lines = ControlResult.normal st2 →
      ∃ t, st2.current.Opaque = st.current.Opaque ++ t) ∧
    (∀ saved current disk, saved.Opaque ≠ current.Opaque →
      (verify (some saved) current disk).1 = false) := by
  refine ⟨?_, controlLoop_opaque x d,
    fun saved current disk hne => verify_opaque_ne_false saved current disk hne⟩
  intro args envs stateFile
  constructor
  · simp [initToolState, crAddOpaque]
  · simp [initToolState, crAddOpaque]

/-- Witness for C10 at concrete inputs: the initial opaques of an
invocation, the growth of the opaque list over a `P` line, and a
verification failure from a changed opaque sequence. -/
theorem c10_opaque_order_witness :
    ((initToolState ["a"] ["e"] none).current.Opaque = ["a"] ++ ["e"] ∧
     (initToolState ["a"] ["e"] none).records =
       [CacheOp.addOpaque ["a"], CacheOp.addOpaque ["e"]]) ∧
    (∃ t, (crAddOpaque (initToolState ["a"] ["e"] none) ["z"]).current.Opaque =
      (initToolState ["a"] ["e"] none).current.Opaque ++ t) ∧
    (verify (some c10saved) { Opaque := ["a"] } (toDisk [])).1 = false :=
  ⟨(c10_opaque_order c10x []).1 ["a"] ["e"] none,
   (c10_opaque_order c10x []).2.1 ["Pz"] (initToolState ["a"] ["e"] none)
     (crAddOpaque (initToolState ["a"] ["e"] none) ["z"]) (by decide),
   (c10_opaque_order c10x []).2.2 c10saved { Opaque := ["a"] } (toDisk [])
     (by decide)⟩

/-- The counterexample to C10's consequence: two invocations with
different argument and environment lists whose concatenations coincide
both pass verification against the same saved state, so a change to the
invocation arguments does not force a rebuild. -/
theorem c10_counterexample :
    (["a", "b"] : List String) ≠ ["a"] ∧ ([] : List String) ≠ ["b"] ∧
    controlWrites (controlLoop c10x []
      (initToolState ["a", "b"] [] (some c10saved)) ["V"]) = some ["1"] ∧
    controlWrites (controlLoop c10x []
      (initToolState ["a"] ["b"] (some c10saved)) ["V"]) = some ["1"] :=
  ⟨by decide, by decide, by decide, by decide⟩

/-- Witness for C9 at a concrete input: a loaded result carrying the error
message of an earlier failed run, rewritten after a successful run at
times 7 and 9. -/
theorem c9_success_preserves_err_witness :
    ({ Err := some "boom" } : TaskResult).Err = some "boom" ∧ (7 : Int) ≠ 0 ∧ (9 : Int) ≠ 0 ∧
    ((writeTaskResult { Err := some "boom" } none 7 9).Err = some "boom" ∧
     (writeTaskResult { Err := some "boom" } none 7 9).StartTime = 7 ∧
     (writeTaskResult { Err := some "boom" } none 7 9).EndTime = 9 ∧
     (writeTaskResult { Err := some "boom" } none 7 9).SuccessBuildStartTime ≠ 0 ∧
     (writeTaskResult { Err := some "boom" } none 7 9).SuccessBuildEndTime ≠ 0 ∧
     (writeTaskResult { Err := some "boom" } none 7 9).Skipped = false) :=
  ⟨rfl, by decide, by decide,
    c9_success_preserves_err { Err := some "boom" } 7 9 "boom" rfl (by decide) (by decide)⟩

end Repos
